import Mathlib

/-!
Verification of the ReAct agent orchestration loop of the Bob assistant
(`backend/app/agents/ai_agent.py`).

The Python code is shallowly embedded over `List Char`: Python strings become
character lists, the stateful response cache becomes an explicit association
list threaded through `process_message`, the LLM completion wrapper becomes an
oracle `Nat → GenOut` giving the outcome of the wrapped completion call at each
loop iteration, and each tool body becomes an abstract function
`List Char → List Char → Except (List Char) (List Char)` (an `Except.error e`
models the tool raising an exception with message `e`, which the controller
catches).  All definitions are executable so that concrete runs evaluate by
`decide`.
-/

namespace Bob

/-! ## Character-level string primitives (Python `str` operations) -/

/-- Python whitespace for `str.strip` / regex `\s` (ASCII fragment):
space, tab, newline, carriage return, vertical tab, form feed. -/
def isWS (c : Char) : Bool :=
  c = ' ' || c = '\t' || c = '\n' || c = '\r' || c = '\x0b' || c = '\x0c'

/-- Drop leading characters satisfying `p`. -/
def lstripBy (p : Char → Bool) : List Char → List Char
  | [] => []
  | c :: cs => if p c then lstripBy p cs else c :: cs

/-- Drop trailing characters satisfying `p`. -/
def rstripBy (p : Char → Bool) (s : List Char) : List Char :=
  (lstripBy p s.reverse).reverse

/-- Drop characters satisfying `p` from both ends (Python `str.strip(chars)`). -/
def stripBy (p : Char → Bool) (s : List Char) : List Char :=
  rstripBy p (lstripBy p s)

/-- `s.lstrip()` (whitespace). -/
def ltrim (s : List Char) : List Char := lstripBy isWS s

/-- `s.rstrip()` (whitespace). -/
def rtrim (s : List Char) : List Char := rstripBy isWS s

/-- Python `s.strip()`. -/
def trim (s : List Char) : List Char := stripBy isWS s

/-- Quote characters removed by `action_input.strip('"\x27')`. -/
def isQuoteCh (c : Char) : Bool := c = '"' || c = Char.ofNat 39

/-- `action_input.strip('"\x27')`. -/
def stripQuotes (s : List Char) : List Char := stripBy isQuoteCh s

/-- Python `s.lower()` (ASCII fragment, as used by the agent). -/
def lowerStr (s : List Char) : List Char := s.map Char.toLower

/-- `p` is a prefix of `s` (Boolean, by character equality). -/
def isPre : List Char → List Char → Bool
  | [], _ => true
  | _ :: _, [] => false
  | a :: ps, b :: ss => a = b && isPre ps ss

/-- `p` is a prefix of `s` after lower-casing `s` (case-insensitive match of
the already-lower-cased pattern `p`). -/
def isPreCI : List Char → List Char → Bool
  | [], _ => true
  | _ :: _, [] => false
  | a :: ps, b :: ss => a = Char.toLower b && isPreCI ps ss

/-- Python substring containment `pat in s`. -/
def containsSub (pat : List Char) : List Char → Bool
  | [] => pat.isEmpty
  | c :: cs => isPre pat (c :: cs) || containsSub pat cs

/-- The suffix of `s` after the last occurrence of `pat` (`none` when `pat`
does not occur).  For the border-free separator `"Final Answer:"` this is
exactly Python's `s.split(sep)[-1]` in the occurring case. -/
def textAfterLast (pat : List Char) : List Char → Option (List Char)
  | [] => none
  | c :: cs =>
    match textAfterLast pat cs with
    | some r => some r
    | none =>
      if isPre pat (c :: cs) then some (List.drop pat.length (c :: cs)) else none

/-- Python `", ".join(names)`. -/
def joinSep (sep : List Char) : List (List Char) → List Char
  | [] => []
  | [x] => x
  | x :: y :: xs => x ++ sep ++ joinSep sep (y :: xs)

/-! ## The regex fragments used by the agent

`_parse_and_execute_action` uses `re.search(r'Action:\s*([^\n]+)', text,
re.IGNORECASE)` (and likewise for `Action Input:`); `_extract_final_answer`
uses `re.split(r'(Thought:|Action:)', answer)[0]` (case-sensitive). -/

/-- Matcher for `\s*([^\n]+)` anchored at the start of `s`, with the
backtracking semantics of the Python `re` engine: the greedy `\s*` consumes as
much whitespace as possible, backing off until `[^\n]+` can match at least one
character; the returned value is the captured group. -/
def wsLine : List Char → Option (List Char)
  | [] => none
  | c :: cs =>
    if isWS c then
      match wsLine cs with
      | some g => some g
      | none =>
        if c = '\n' then none
        else some ((c :: cs).takeWhile (fun x => x != '\n'))
    else some ((c :: cs).takeWhile (fun x => x != '\n'))

/-- `re.search(pat ++ r'\s*([^\n]+)', s, re.IGNORECASE).group(1)` for a literal
pattern `pat` (given lower-cased): try the pattern at each position from the
left, returning the group of the first position where the whole regex
matches. -/
def reSearchCI (pat : List Char) : List Char → Option (List Char)
  | [] => none
  | c :: cs =>
    match (if isPreCI pat (c :: cs) then wsLine (List.drop pat.length (c :: cs)) else none) with
    | some g => some g
    | none => reSearchCI pat cs

/-- Split into lines at `'\n'` (Python `str.split('\n')`). -/
def splitLines : List Char → List (List Char)
  | [] => [[]]
  | c :: cs =>
    if c = '\n' then [] :: splitLines cs
    else
      match splitLines cs with
      | [] => [[c]]
      | l :: ls => (c :: l) :: ls

/-- Modelled from the spec: §4.4 requires the `Action:` / `Action Input:`
extraction to be found by "line-anchored pattern matching (case-insensitive)",
i.e. the pattern must match at the start of some line.  This definition follows
the spec's words (it is not how the source searches) and exists only to be
compared against `reSearchCI`. -/
def anchoredSearchCI (pat : List Char) (s : List Char) : Option (List Char) :=
  (splitLines s).findSome?
    (fun l => if isPreCI pat l then wsLine (List.drop pat.length l) else none)

/-! ## Tool registry (`AIAssistantAgent._initialize_tools`)

Only the tool names matter to the orchestration loop: resolution compares
names case-insensitively, and the "tool not found" Observation enumerates
them.  Tool bodies are abstracted by the `exec` oracle of `AgentCtx`. -/

/-- The names of the thirteen registered tools, in registration order. -/
def toolNames : List (List Char) :=
  [ "get_weather".data, "create_task".data, "list_tasks".data,
    "complete_task".data, "get_current_time".data, "send_email".data,
    "add_contact".data, "get_contact".data, "list_contacts".data,
    "Get_youtube_transcript".data, "Create_detailed_notes".data,
    "Send through Discord".data, "search_stackoverflow".data ]

/-- `next((t for t in self.tools if t.name.lower() == action_name.lower()), None)`:
case-insensitive resolution, returning the canonical registered name. -/
def resolveTool (name : List Char) : Option (List Char) :=
  toolNames.find? (fun t => lowerStr t == lowerStr name)

/-! ## Marker and message constants -/

def faMarker : List Char := "Final Answer:".data
def thoughtMarker : List Char := "Thought:".data
def actionMarker : List Char := "Action:".data
/-- The lower-cased literal of the `Action:` regex (matched case-insensitively). -/
def actionPat : List Char := "action:".data
/-- The lower-cased literal of the `Action Input:` regex. -/
def actionInputPat : List Char := "action input:".data

/-- `f"Error: Tool '{action_name}' not found. Available tools: {available_tools}"`
with `available_tools = ", ".join(t.name for t in self.tools)`. -/
def notFoundMsg (name : List Char) : List Char :=
  "Error: Tool ".data ++ [Char.ofNat 39] ++ name ++ [Char.ofNat 39] ++
    " not found. Available tools: ".data ++ joinSep ", ".data toolNames

/-- `f"Error executing {action_name}: {str(e)}"`. -/
def errExecMsg (name e : List Char) : List Char :=
  "Error executing ".data ++ name ++ ": ".data ++ e

/-- `f"\nObservation: {action_result}\n"`. -/
def obsWrap (r : List Char) : List Char :=
  "\nObservation: ".data ++ r ++ "\n".data

/-- The corrective Observation appended when an email-related request reaches a
Final Answer without `send_email` in `tools_used`. -/
def emailObs : List Char :=
  ("\nObservation: ERROR - You said you sent an email but you didn".data ++
    [Char.ofNat 39] ++ "t use the send_email tool. You MUST call the send_email tool to actually send emails. Try again.\n".data)

/-- The corrective Observation appended when a weather-related request reaches
a Final Answer without `get_weather` in `tools_used`. -/
def weatherObs : List Char :=
  "\nObservation: ERROR - You need to use the get_weather tool to get weather information. Try again.\n".data

/-- The corrective Observation appended when the response has no usable
`Action:` / `Action Input:` pair. -/
def formatObs : List Char :=
  "\nObservation: You must provide an Action and Action Input. Use the format:\nAction: [tool_name]\nAction Input: [input]\n".data

def rateLimitText : List Char :=
  "I".data ++ [Char.ofNat 39] ++ "m experiencing rate limits. Please try again in a few seconds.".data

def rateLimitErrText : List Char := "Rate limit exceeded".data

def exhaustedPre : List Char :=
  ("I".data ++ [Char.ofNat 39] ++
    "ve analyzed your request but need to think more. Let me summarize what I found: ".data)

def noInfoText : List Char := "No information yet".data

def erroredPre : List Char := "I encountered an error: ".data

def sendEmailName : List Char := "send_email".data
def getWeatherName : List Char := "get_weather".data

/-! ## `_requires_tools` -/

/-- The `tool_keywords` table of `_requires_tools`, verbatim. -/
def tool_keywords : List (List Char × List (List Char)) :=
  [ ("weather".data,
      ["weather".data, "temperature".data, "rain".data, "sunny".data,
       "climate".data, "forecast".data]),
    ("task".data,
      ["task".data, "todo".data, "remind".data, "remember".data, "add".data,
       "create".data, "complete".data, "done".data, "finish".data]),
    ("time".data,
      ["time".data, "date".data, "today".data, "now".data, "what day".data]),
    ("email".data,
      ["email".data, "send".data, "mail".data, "message".data]),
    ("contact".data,
      ["contact".data, "alias".data, "save contact".data, "add contact".data]),
    ("stackoverflow".data,
      ["how to".data, "how do i".data, "error".data, "debug".data, "fix".data,
       "code".data, "python".data, "javascript".data, "react".data,
       "fastapi".data, "api".data, "function".data, "syntax".data,
       "stackoverflow".data]) ]

/-- `_requires_tools`: true when any keyword of any category occurs in the
lower-cased message. -/
def requires_tools (message : List Char) : Bool :=
  tool_keywords.any (fun ck => ck.2.any (fun k => containsSub k (lowerStr message)))

/-! ## `_extract_final_answer` -/

/-- Truncate before the first (case-sensitive) occurrence of `Thought:` or
`Action:` — `re.split(r'(Thought:|Action:)', answer)[0]`. -/
def cutMarkers : List Char → List Char
  | [] => []
  | c :: cs =>
    if isPre thoughtMarker (c :: cs) || isPre actionMarker (c :: cs) then []
    else c :: cutMarkers cs

/-- `_extract_final_answer`: when `"Final Answer:" in resp`, take
`resp.split("Final Answer:")[-1].strip()` (the suffix after the last
occurrence of the border-free separator, stripped), then truncate before any
following `Thought:`/`Action:` and strip again; otherwise return `resp`
unchanged.  `textAfterLast` is `none` exactly when the marker does not
occur. -/
def extract_final_answer (resp : List Char) : List Char :=
  match textAfterLast faMarker resp with
  | some rest => trim (cutMarkers (trim rest))
  | none => resp

/-! ## `_parse_and_execute_action` -/

/-- Outcome of invoking a tool body: `ok r` is a returned string, `error e`
models the body raising an exception with text `e`. -/
abbrev ToolExec : Type := List Char → List Char → Except (List Char) (List Char)

/-- Resolution and dispatch once `action_name` and `action_input` have been
extracted (the body of `_parse_and_execute_action` after the two regex
searches succeed). -/
def dispatchAction (exec : ToolExec) (action_name action_input : List Char) :
    Option (List Char) × Option (List Char) :=
  match resolveTool action_name with
  | some t =>
    match exec t action_input with
    | .ok r => (some r, some action_name)
    | .error e => (some (errExecMsg action_name e), some action_name)
  | none => (some (notFoundMsg action_name), none)

/-- `_parse_and_execute_action`: regex-extract the action name and input
(first match of each pattern anywhere in the text, case-insensitively); if
either is missing return `(None, None)`; otherwise strip the name, strip and
unquote the input, and resolve/dispatch.  Returns `(result, action_name)`
exactly as the Python function does (the recorded name is the parsed text,
not the canonical tool name). -/
def parse_and_execute (exec : ToolExec) (resp : List Char) :
    Option (List Char) × Option (List Char) :=
  match reSearchCI actionPat resp, reSearchCI actionInputPat resp with
  | some am, some im => dispatchAction exec (trim am) (stripQuotes (trim im))
  | _, _ => (none, none)

/-! ## `_generate_with_retry` -/

/-- Outcome of the wrapper: `success t` (returned text), `failSignal`
(returned `None` after exhausting rate-limit retries, or `max_retries = 0`),
`raised e` (re-raised a non-rate-limit error). -/
inductive RetryResult where
  | success (t : List Char)
  | failSignal
  | raised (e : List Char)
deriving DecidableEq

/-- Is this client outcome a rate-limit error
(`"quota" in str(e).lower() or "rate" in str(e).lower()`)? -/
def isRateErr (o : Except (List Char) (List Char)) : Bool :=
  match o with
  | .ok _ => false
  | .error e =>
    containsSub "quota".data (lowerStr e) || containsSub "rate".data (lowerStr e)

/-- The attempt loop of `_generate_with_retry`.  `client i` is the outcome of
the `i`-th call of `self.model.generate_content(prompt)`; the second component
counts how many calls were made.  `remaining` is `max_retries - attempt`;
`attempt < max_retries - 1` is `1 ≤ remaining - 1`. -/
def retryAux (client : Nat → Except (List Char) (List Char)) :
    Nat → Nat → RetryResult × Nat
  | 0, _ => (.failSignal, 0)
  | remaining + 1, attempt =>
    match client attempt with
    | .ok t => (.success (trim t), 1)
    | .error e =>
      if containsSub "quota".data (lowerStr e) || containsSub "rate".data (lowerStr e) then
        if 1 ≤ remaining then
          let r := retryAux client remaining (attempt + 1)
          (r.1, r.2 + 1)
        else (.failSignal, 1)
      else (.raised e, 1)

/-- `_generate_with_retry` with its invocation count. -/
def generate_with_retry (client : Nat → Except (List Char) (List Char))
    (maxRetries : Nat) : RetryResult × Nat :=
  retryAux client maxRetries 0

/-! ## `process_message` (the ReAct loop controller) -/

/-- Outcome of `await self._generate_with_retry(full_prompt)` at one loop
iteration: a returned text, a `None` (rate-limit retries exhausted), or a
re-raised exception (caught by the outermost `except`). -/
inductive GenOut where
  | ok (t : List Char)
  | rateLimited
  | raised (e : List Char)
deriving DecidableEq

/-- One return site of `process_message`, with the fields its dict carries.
`cachedHit` also reports `iterations = 0` and `cached = True`; `rateLimit` and
`errored` report `success = False` and an `error` field and no iteration
count; `answered` and `exhausted` report `success = True` with the reasoning
scratchpad and `tools_used`. -/
inductive LoopResult where
  | cachedHit (response : List Char)
  | rateLimit
  | answered (response : List Char) (iterations : Nat)
      (reasoning : List (List Char)) (toolsUsed : List (List Char))
  | exhausted (response : List Char)
      (reasoning : List (List Char)) (toolsUsed : List (List Char))
  | errored (e : List Char)
deriving DecidableEq

/-- The `success` field of the returned dict. -/
def LoopResult.success : LoopResult → Bool
  | .cachedHit _ => true
  | .rateLimit => false
  | .answered .. => true
  | .exhausted .. => true
  | .errored _ => false

/-- The `iterations` field of the returned dict (`none` when the dict carries
no such key; the exhausted branch reports `max_iterations = 5`). -/
def LoopResult.iterationsUsed : LoopResult → Option Nat
  | .cachedHit _ => some 0
  | .answered _ i _ _ => some i
  | .exhausted .. => some 5
  | _ => none

/-- The `response` field of the returned dict. -/
def LoopResult.responseText : LoopResult → List Char
  | .cachedHit r => r
  | .rateLimit => rateLimitText
  | .answered r .. => r
  | .exhausted r .. => r
  | .errored e => erroredPre ++ e

/-- The `tools_used` field, when present. -/
def LoopResult.toolsUsedOf : LoopResult → List (List Char)
  | .answered _ _ _ ts => ts
  | .exhausted _ _ ts => ts
  | _ => []

/-- The `error` field, when present. -/
def LoopResult.errorField : LoopResult → Option (List Char)
  | .rateLimit => some rateLimitErrText
  | .errored e => some e
  | _ => none

def LoopResult.isAnswered : LoopResult → Bool
  | .answered .. => true
  | _ => false

/-- `self.response_cache`: a Python dict from normalized message to response
text.  Insertion conses; lookup takes the first hit, so a later insert of the
same key shadows (dict-assignment overwrite). -/
abbrev Cache : Type := List (List Char × List Char)

def lookupCache (c : Cache) (k : List Char) : Option (List Char) :=
  (List.find? (fun p => p.1 == k) c).map (fun p => p.2)

def insertCache (c : Cache) (k v : List Char) : Cache := (k, v) :: c

/-- `message.lower().strip()`, the cache key. -/
def cacheKey (msg : List Char) : List Char := trim (lowerStr msg)

/-- The inputs of one `process_message` call: the completion oracle (outcome
of the retry wrapper at each iteration), the tool bodies, the
`self.cache_enabled` flag and the user message. -/
structure AgentCtx where
  gen : Nat → GenOut
  exec : ToolExec
  cacheEnabled : Bool
  message : List Char

/-- The `max_iterations` return:
`"I've analyzed your request but need to think more. Let me summarize what I
found: " + (agent_scratchpad[-1] if agent_scratchpad else "No information
yet")`. -/
def exhaustedResult (pad used : List (List Char)) : LoopResult :=
  .exhausted (exhaustedPre ++ pad.getLastD noInfoText) pad used

/-- The `for iteration in range(max_iterations)` loop of `process_message`.
`fuel` is the number of iterations left, `i` the current value of
`iteration`, `pad` the `agent_scratchpad`, `used` the `tools_used` list.  The
cache is threaded through because an accepted Final Answer of a no-tools
request writes `self.response_cache[cache_key] = final_answer`. -/
def agentLoop (ctx : AgentCtx) :
    Nat → Nat → List (List Char) → List (List Char) → Cache → LoopResult × Cache
  | 0, _, pad, used, cache => (exhaustedResult pad used, cache)
  | fuel + 1, i, pad, used, cache =>
    match ctx.gen i with
    | .raised e => (.errored e, cache)
    | .rateLimited => (.rateLimit, cache)
    | .ok t =>
      -- `if not agent_response:` — falsy for None and for the empty string
      if t = [] then (.rateLimit, cache)
      else
        let pad1 := pad ++ [t]
        if containsSub faMarker t then
          let ml := lowerStr ctx.message
          if (containsSub "email".data ml || containsSub "mail".data ml) &&
              !(used.any (fun n => n = sendEmailName)) then
            agentLoop ctx fuel (i + 1) (pad1 ++ [emailObs]) used cache
          else if containsSub "weather".data ml &&
              !(used.any (fun n => n = getWeatherName)) then
            agentLoop ctx fuel (i + 1) (pad1 ++ [weatherObs]) used cache
          else
            let ans := extract_final_answer t
            let cache1 :=
              if ctx.cacheEnabled && !(requires_tools ctx.message) then
                insertCache cache (cacheKey ctx.message) ans
              else cache
            (.answered ans (i + 1) pad1 used, cache1)
        else
          match parse_and_execute ctx.exec t with
          | (some res, name?) =>
            -- `if action_result:` — truthy only for a nonempty string
            if res ≠ [] then
              let used1 :=
                match name? with
                | some n => if n ≠ [] then used ++ [n] else used
                | none => used
              agentLoop ctx fuel (i + 1) (pad1 ++ [obsWrap res]) used1 cache
            else
              agentLoop ctx fuel (i + 1) (pad1 ++ [formatObs]) used cache
          | (none, _) =>
            agentLoop ctx fuel (i + 1) (pad1 ++ [formatObs]) used cache

/-- `process_message`: cache short-circuit for no-tools messages, then the
five-iteration ReAct loop.  The prompt text sent to the completion endpoint is
not modelled (the oracle is indexed by iteration); every other branch of the
function is. -/
def process_message (ctx : AgentCtx) (cache : Cache) : LoopResult × Cache :=
  if ctx.cacheEnabled && !(requires_tools ctx.message) then
    match lookupCache cache (cacheKey ctx.message) with
    | some v => (.cachedHit v, cache)
    | none => agentLoop ctx 5 0 [] [] cache
  else agentLoop ctx 5 0 [] [] cache

/-! ## Library lemmas: prefixes, substrings, last occurrences -/

theorem isPre_iff (p s : List Char) : isPre p s = true ↔ ∃ t, s = p ++ t := by
  induction p generalizing s with
  | nil => simp [isPre]
  | cons a ps ih =>
    cases s with
    | nil => simp [isPre]
    | cons b ss =>
      simp only [isPre, Bool.and_eq_true, decide_eq_true_eq, ih]
      constructor
      · rintro ⟨rfl, t, rfl⟩
        exact ⟨t, rfl⟩
      · rintro ⟨t, ht⟩
        injection ht with h1 h2
        exact ⟨h1.symm, t, h2⟩

theorem isPre_self (p : List Char) : isPre p p = true :=
  (isPre_iff p p).2 ⟨[], by simp⟩

theorem containsSub_iff (p s : List Char) :
    containsSub p s = true ↔ ∃ a b, s = a ++ p ++ b := by
  induction s with
  | nil =>
    simp only [containsSub, List.isEmpty_iff]
    constructor
    · rintro rfl
      exact ⟨[], [], rfl⟩
    · rintro ⟨a, b, h⟩
      rcases List.append_eq_nil.1 h.symm with ⟨h1, h2⟩
      exact (List.append_eq_nil.1 h1).2
  | cons c cs ih =>
    simp only [containsSub, Bool.or_eq_true, isPre_iff, ih]
    constructor
    · rintro (⟨t, ht⟩ | ⟨a, b, rfl⟩)
      · exact ⟨[], t, by simp [ht]⟩
      · exact ⟨c :: a, b, rfl⟩
    · rintro ⟨a, b, h⟩
      cases a with
      | nil => exact Or.inl ⟨b, by simpa using h⟩
      | cons x xs =>
        injection h with h1 h2
        exact Or.inr ⟨xs, b, h2⟩

theorem containsSub_of_isPre {p s : List Char} (h : isPre p s = true) :
    containsSub p s = true := by
  cases s with
  | nil =>
    cases p with
    | nil => rfl
    | cons a ps => simp [isPre] at h
  | cons c cs => simp [containsSub, h]

theorem containsSub_append_right {p b : List Char} (a : List Char)
    (h : containsSub p b = true) : containsSub p (a ++ b) = true := by
  rcases (containsSub_iff p b).1 h with ⟨x, y, rfl⟩
  exact (containsSub_iff _ _).2 ⟨a ++ x, y, by simp⟩

theorem textAfterLast_eq_none_iff {p : List Char} (hp : p ≠ []) (s : List Char) :
    textAfterLast p s = none ↔ containsSub p s = false := by
  induction s with
  | nil =>
    simp [textAfterLast, containsSub, List.isEmpty_iff, hp]
  | cons c cs ih =>
    simp only [textAfterLast, containsSub]
    cases h : textAfterLast p cs with
    | some r =>
      simp only []
      constructor
      · intro hn
        exact absurd hn (by simp)
      · intro hn
        rw [Bool.or_eq_false_iff] at hn
        rw [← ih] at hn
        rw [h] at hn
        exact absurd hn.2 (by simp)
    | none =>
      have hcs : containsSub p cs = false := ih.1 h
      simp only [hcs, Bool.or_false]
      by_cases hpre : isPre p (c :: cs) = true
      · simp [hpre]
      · simp [Bool.not_eq_true] at hpre
        simp [hpre]

/-- `p` has no nontrivial border: no proper nonempty suffix of `p` is also a
prefix of `p`.  This rules out overlapping occurrences, so the suffix after
the last occurrence is what Python's non-overlapping `str.split` produces
last. -/
abbrev borderFree (p : List Char) : Prop :=
  ∀ k, k < p.length → 0 < k → p.drop k ≠ p.take (p.length - k)

theorem borderFree_faMarker : borderFree faMarker := by decide

/-- No occurrence of a border-free `p` survives in `p.tail ++ r` when `r`
contains none: an occurrence would either straddle the removed head (a
border) or lie inside `r`. -/
theorem not_contains_tail_append {p r : List Char} (c : Char) (ps : List Char)
    (hp : p = c :: ps) (hb : borderFree p)
    (hr : containsSub p r = false) : containsSub p (ps ++ r) = false := by
  by_contra hcon
  rw [Bool.not_eq_false] at hcon
  rcases (containsSub_iff p (ps ++ r)).1 hcon with ⟨a, b, hab⟩
  -- lift to an occurrence in `p ++ r` at positive offset `(c :: a).length`
  have hsplit : p ++ r = (c :: a) ++ p ++ b := by
    have h1 : p ++ r = c :: (ps ++ r) := by rw [hp]; rfl
    rw [h1, hab]
    rfl
  by_cases hlen : (c :: a).length < p.length
  · -- the occurrence straddles the front copy of `p`: a border
    have htake : List.take p.length (p ++ r) = p := List.take_left p r
    rw [hsplit, List.append_assoc, List.take_append_eq_append_take] at htake
    rw [List.take_of_length_le (Nat.le_of_lt hlen)] at htake
    rw [List.take_append_eq_append_take] at htake
    have hsub : p.length - (c :: a).length - p.length = 0 := by omega
    rw [hsub, List.take_zero, List.append_nil] at htake
    -- `(c :: a) ++ p.take (p.length - (c :: a).length) = p`
    have hdrop : List.drop (c :: a).length p = List.take (p.length - (c :: a).length) p := by
      conv_lhs => rw [← htake]
      rw [List.drop_left]
    exact hb (c :: a).length hlen (by simp) hdrop
  · -- the occurrence lies inside `r`
    push_neg at hlen
    have hdrop : List.drop p.length (p ++ r) = r := List.drop_left p r
    rw [hsplit, List.append_assoc, List.drop_append_eq_append_drop] at hdrop
    have h2 : p.length - (c :: a).length = 0 := by omega
    rw [h2, List.drop_zero] at hdrop
    have : containsSub p r = true := by
      rw [← hdrop]
      exact containsSub_append_right _
        (containsSub_of_isPre ((isPre_iff p (p ++ b)).2 ⟨b, rfl⟩))
    rw [this] at hr
    exact absurd hr (by simp)

/-- The suffix after the last occurrence: decomposing `s` as
`pre ++ p ++ r` with no occurrence of the border-free `p` in `r` pins
`textAfterLast` to `r`. -/
theorem textAfterLast_append {p r : List Char} (hp : p ≠ []) (hb : borderFree p)
    (hr : containsSub p r = false) :
    ∀ pre, textAfterLast p (pre ++ p ++ r) = some r := by
  intro pre
  induction pre with
  | nil =>
    obtain ⟨c, ps, rfl⟩ : ∃ c ps, p = c :: ps := by
      cases p with
      | nil => exact absurd rfl hp
      | cons c ps => exact ⟨c, ps, rfl⟩
    have htail : containsSub (c :: ps) (ps ++ r) = false :=
      not_contains_tail_append c ps rfl hb hr
    have hnone : textAfterLast (c :: ps) (ps ++ r) = none :=
      (textAfterLast_eq_none_iff hp (ps ++ r)).2 htail
    show textAfterLast (c :: ps) ((c :: ps) ++ r) = some r
    have hcons : (c :: ps) ++ r = c :: (ps ++ r) := rfl
    rw [hcons]
    simp only [textAfterLast, hnone]
    rw [← hcons]
    rw [(isPre_iff (c :: ps) ((c :: ps) ++ r)).2 ⟨r, rfl⟩]
    simp [List.drop_left]
  | cons d pre' ih =>
    have : (d :: pre') ++ p ++ r = d :: (pre' ++ p ++ r) := by simp
    rw [this]
    simp only [textAfterLast, ih]

/-! ## Library lemmas: stripping and marker truncation

`_extract_final_answer` strips, truncates at the first `Thought:`/`Action:`,
then strips again; the claims describe truncate-then-strip.  These lemmas show
the two agree: truncation commutes with stripping because both markers consist
of non-whitespace characters. -/

theorem ws_cases {c : Char} (h : isWS c = true) :
    c = ' ' ∨ c = '\t' ∨ c = '\n' ∨ c = '\r' ∨ c = '\x0b' ∨ c = '\x0c' := by
  simp only [isWS, Bool.or_eq_true, decide_eq_true_eq] at h
  tauto

theorem thought_not_isPre_of_ws {c : Char} (cs : List Char) (h : isWS c = true) :
    isPre thoughtMarker (c :: cs) = false := by
  rcases ws_cases h with rfl | rfl | rfl | rfl | rfl | rfl <;> rfl

theorem action_not_isPre_of_ws {c : Char} (cs : List Char) (h : isWS c = true) :
    isPre actionMarker (c :: cs) = false := by
  rcases ws_cases h with rfl | rfl | rfl | rfl | rfl | rfl <;> rfl

theorem cutMarkers_cons_ws {c : Char} (cs : List Char) (h : isWS c = true) :
    cutMarkers (c :: cs) = c :: cutMarkers cs := by
  simp [cutMarkers, thought_not_isPre_of_ws cs h, action_not_isPre_of_ws cs h]

theorem lstripBy_cons_pos {p : Char → Bool} {c : Char} (cs : List Char)
    (h : p c = true) : lstripBy p (c :: cs) = lstripBy p cs := by
  simp [lstripBy, h]

theorem lstripBy_cons_neg {p : Char → Bool} {c : Char} (cs : List Char)
    (h : p c = false) : lstripBy p (c :: cs) = c :: cs := by
  simp [lstripBy, h]

theorem ltrim_cons_pos {c : Char} (cs : List Char) (h : isWS c = true) :
    ltrim (c :: cs) = ltrim cs := lstripBy_cons_pos cs h

theorem ltrim_cons_neg {c : Char} (cs : List Char) (h : isWS c = false) :
    ltrim (c :: cs) = c :: cs := lstripBy_cons_neg cs h

/-- Truncation commutes with left-stripping. -/
theorem cutMarkers_ltrim (s : List Char) :
    cutMarkers (ltrim s) = ltrim (cutMarkers s) := by
  induction s with
  | nil => rfl
  | cons c cs ih =>
    by_cases hc : isWS c = true
    · rw [ltrim_cons_pos cs hc, cutMarkers_cons_ws cs hc, ltrim_cons_pos _ hc]
      exact ih
    · rw [Bool.not_eq_true] at hc
      rw [ltrim_cons_neg cs hc]
      by_cases hm : (isPre thoughtMarker (c :: cs) || isPre actionMarker (c :: cs)) = true
      · have hcut : cutMarkers (c :: cs) = [] := by
          simp only [cutMarkers, hm]
          rfl
        rw [hcut]
        rfl
      · rw [Bool.not_eq_true] at hm
        have hcut : cutMarkers (c :: cs) = c :: cutMarkers cs := by
          simp only [cutMarkers, hm]
          rfl
        rw [hcut, ltrim_cons_neg _ hc]

theorem allNonWS_thought : ∀ c ∈ thoughtMarker, isWS c = false := by decide

theorem allNonWS_action : ∀ c ∈ actionMarker, isWS c = false := by decide

/-- A pattern of non-whitespace characters matches at the front of `v ++ w`
(all-whitespace `w`) iff it matches at the front of `v`. -/
theorem isPre_append_allWS {m : List Char} (hm : ∀ c ∈ m, isWS c = false) :
    ∀ (v w : List Char), (∀ c ∈ w, isWS c = true) → isPre m (v ++ w) = isPre m v := by
  induction m with
  | nil => intro v w _; rfl
  | cons a ms ih =>
    intro v w hw
    cases v with
    | nil =>
      cases w with
      | nil => rfl
      | cons d ws =>
        have hda : ¬(a = d) := by
          intro he
          have h1 : isWS a = false := hm a (by simp)
          have h2 : isWS d = true := hw d (by simp)
          rw [he, h2] at h1
          exact absurd h1 (by simp)
        show isPre (a :: ms) (d :: ws) = isPre (a :: ms) []
        simp [isPre, hda]
    | cons b vs =>
      show isPre (a :: ms) (b :: (vs ++ w)) = isPre (a :: ms) (b :: vs)
      simp only [isPre]
      rw [ih (fun x hx => hm x (by simp [hx])) vs w hw]

/-- Does `s` contain a (case-sensitive) `Thought:` or `Action:` marker? -/
def hasMarker (s : List Char) : Bool :=
  containsSub thoughtMarker s || containsSub actionMarker s

theorem cutMarkers_eq_self {s : List Char} (h : hasMarker s = false) :
    cutMarkers s = s := by
  induction s with
  | nil => rfl
  | cons c cs ih =>
    simp only [hasMarker, containsSub, Bool.or_eq_false_iff] at h
    obtain ⟨⟨hth1, hth2⟩, hac1, hac2⟩ := h
    have hcut : cutMarkers (c :: cs) = c :: cutMarkers cs := by
      simp only [cutMarkers, hth1, hac1]
      rfl
    rw [hcut, ih (by simp [hasMarker, hth2, hac2])]

theorem cutMarkers_allWS {w : List Char} (hw : ∀ c ∈ w, isWS c = true) :
    cutMarkers w = w := by
  induction w with
  | nil => rfl
  | cons c cs ih =>
    rw [cutMarkers_cons_ws cs (hw c (by simp))]
    rw [ih (fun x hx => hw x (by simp [hx]))]

/-- Truncation through an all-whitespace tail: the tail cannot host or extend
a marker occurrence. -/
theorem cutMarkers_append_allWS {w : List Char} (hw : ∀ c ∈ w, isWS c = true) :
    ∀ v, cutMarkers (v ++ w) = if hasMarker v then cutMarkers v else v ++ w := by
  intro v
  induction v with
  | nil =>
    have h0 : hasMarker ([] : List Char) = false := rfl
    rw [List.nil_append, h0]
    simp only [Bool.false_eq_true, if_false]
    exact cutMarkers_allWS hw
  | cons c vs ih =>
    have e1 : isPre thoughtMarker ((c :: vs) ++ w) = isPre thoughtMarker (c :: vs) :=
      isPre_append_allWS allNonWS_thought (c :: vs) w hw
    have e2 : isPre actionMarker ((c :: vs) ++ w) = isPre actionMarker (c :: vs) :=
      isPre_append_allWS allNonWS_action (c :: vs) w hw
    have hstep : cutMarkers ((c :: vs) ++ w) =
        if isPre thoughtMarker ((c :: vs) ++ w) || isPre actionMarker ((c :: vs) ++ w)
        then [] else c :: cutMarkers (vs ++ w) := rfl
    have hstep2 : cutMarkers (c :: vs) =
        if isPre thoughtMarker (c :: vs) || isPre actionMarker (c :: vs)
        then [] else c :: cutMarkers vs := rfl
    have hhm : hasMarker (c :: vs) =
        ((isPre thoughtMarker (c :: vs) || isPre actionMarker (c :: vs)) || hasMarker vs) := by
      simp [hasMarker, containsSub, Bool.or_assoc, Bool.or_comm, Bool.or_left_comm]
    by_cases hm : (isPre thoughtMarker (c :: vs) || isPre actionMarker (c :: vs)) = true
    · have lhs0 : cutMarkers ((c :: vs) ++ w) = [] := by
        rw [hstep, e1, e2, hm]
        rfl
      have hm2 : hasMarker (c :: vs) = true := by
        rw [hhm, hm]
        rfl
      have rhs0 : cutMarkers (c :: vs) = [] := by
        rw [hstep2, hm]
        rfl
      rw [lhs0, hm2, rhs0]
      rfl
    · rw [Bool.not_eq_true] at hm
      have lhs0 : cutMarkers ((c :: vs) ++ w) = c :: cutMarkers (vs ++ w) := by
        rw [hstep, e1, e2, hm]
        rfl
      have hm2 : hasMarker (c :: vs) = hasMarker vs := by
        rw [hhm, hm]
        rfl
      rw [lhs0, hm2, ih]
      by_cases hv : hasMarker vs = true
      · have rhs0 : cutMarkers (c :: vs) = c :: cutMarkers vs := by
          rw [hstep2, hm]
          rfl
        rw [hv, rhs0]
        rfl
      · rw [Bool.not_eq_true] at hv
        rw [hv]
        rfl

theorem lstripBy_append_all {p : Char → Bool} (w : List Char) :
    (∀ c ∈ w, p c = true) → ∀ x, lstripBy p (w ++ x) = lstripBy p x := by
  induction w with
  | nil => intro _ x; rfl
  | cons c cs ih =>
    intro hw x
    rw [List.cons_append, lstripBy_cons_pos _ (hw c (by simp))]
    exact ih (fun d hd => hw d (by simp [hd])) x

theorem lstripBy_decomp (p : Char → Bool) (s : List Char) :
    ∃ w, (∀ c ∈ w, p c = true) ∧ s = w ++ lstripBy p s := by
  induction s with
  | nil => exact ⟨[], by simp, rfl⟩
  | cons c cs ih =>
    by_cases hc : p c = true
    · obtain ⟨w, hw, hdec⟩ := ih
      refine ⟨c :: w, ?_, ?_⟩
      · intro d hd
        rcases List.mem_cons.1 hd with rfl | hd2
        · exact hc
        · exact hw d hd2
      · rw [lstripBy_cons_pos _ hc, List.cons_append]
        exact congrArg (c :: ·) hdec
    · rw [Bool.not_eq_true] at hc
      exact ⟨[], by simp, by rw [lstripBy_cons_neg _ hc]; rfl⟩

theorem rtrim_decomp (s : List Char) :
    ∃ w, (∀ c ∈ w, isWS c = true) ∧ s = rtrim s ++ w := by
  obtain ⟨w, hw, hdec⟩ := lstripBy_decomp isWS s.reverse
  refine ⟨w.reverse, fun c hc => hw c (List.mem_reverse.1 hc), ?_⟩
  have h2 := congrArg List.reverse hdec
  rw [List.reverse_reverse, List.reverse_append] at h2
  exact h2

theorem rtrim_append_allWS {w : List Char} (hw : ∀ c ∈ w, isWS c = true)
    (v : List Char) : rtrim (v ++ w) = rtrim v := by
  show (lstripBy isWS (v ++ w).reverse).reverse = (lstripBy isWS v.reverse).reverse
  rw [List.reverse_append]
  rw [lstripBy_append_all w.reverse (fun c hc => hw c (List.mem_reverse.1 hc)) v.reverse]

/-- Truncation commutes with right-stripping, up to a final right-strip. -/
theorem rtrim_cut_rtrim (u : List Char) :
    rtrim (cutMarkers (rtrim u)) = rtrim (cutMarkers u) := by
  obtain ⟨w, hw, hdec⟩ := rtrim_decomp u
  conv_rhs => rw [hdec]
  rw [cutMarkers_append_allWS hw (rtrim u)]
  by_cases hm : hasMarker (rtrim u) = true
  · rw [hm]
    rfl
  · rw [Bool.not_eq_true] at hm
    rw [hm]
    simp only [Bool.false_eq_true, if_false]
    rw [rtrim_append_allWS hw, cutMarkers_eq_self hm]

theorem ltrim_head_or (s : List Char) :
    ltrim s = [] ∨ ∃ c cs, ltrim s = c :: cs ∧ isWS c = false := by
  induction s with
  | nil => exact Or.inl rfl
  | cons c cs ih =>
    by_cases hc : isWS c = true
    · rw [ltrim_cons_pos cs hc]
      exact ih
    · rw [Bool.not_eq_true] at hc
      exact Or.inr ⟨c, cs, ltrim_cons_neg cs hc, hc⟩

theorem ltrim_rtrim_ltrim (r : List Char) :
    ltrim (rtrim (ltrim r)) = rtrim (ltrim r) := by
  rcases ltrim_head_or r with h | ⟨c, cs, h, hc⟩
  · rw [h]
    rfl
  · rw [h]
    obtain ⟨w, hw, hdec⟩ := rtrim_decomp (c :: cs)
    cases hrt : rtrim (c :: cs) with
    | nil => rfl
    | cons d ds =>
      rw [hrt] at hdec
      injection hdec with h1 _
      exact ltrim_cons_neg ds (by rw [← h1]; exact hc)

/-- Strip-truncate-strip (what `_extract_final_answer` computes) equals
truncate-then-strip (what the claims describe). -/
theorem trim_cut_trim (r : List Char) :
    trim (cutMarkers (trim r)) = trim (cutMarkers r) := by
  show rtrim (ltrim (cutMarkers (rtrim (ltrim r)))) = rtrim (ltrim (cutMarkers r))
  rw [← cutMarkers_ltrim (rtrim (ltrim r)), ltrim_rtrim_ltrim,
    rtrim_cut_rtrim (ltrim r), cutMarkers_ltrim r]

/-- Closed form of `_extract_final_answer` on any text containing the marker:
decompose the text around the last `Final Answer:` and the result is the
remainder truncated at the first following marker, trimmed. -/
theorem extract_final_answer_closed_form {pre r : List Char}
    (hr : containsSub faMarker r = false) :
    extract_final_answer (pre ++ faMarker ++ r) = trim (cutMarkers r) := by
  unfold extract_final_answer
  rw [textAfterLast_append (by decide) borderFree_faMarker hr pre]
  exact trim_cut_trim r

/-! ## Step lemmas for the ReAct loop -/

theorem agentLoop_zero (ctx : AgentCtx) (i : Nat) (pad used : List (List Char))
    (cache : Cache) : agentLoop ctx 0 i pad used cache = (exhaustedResult pad used, cache) :=
  rfl

theorem agentLoop_raised {ctx : AgentCtx} {i : Nat} {e : List Char}
    (hg : ctx.gen i = .raised e) (fuel : Nat) (pad used : List (List Char))
    (cache : Cache) :
    agentLoop ctx (fuel + 1) i pad used cache = (.errored e, cache) := by
  simp [agentLoop, hg]

theorem agentLoop_rateLimited {ctx : AgentCtx} {i : Nat}
    (hg : ctx.gen i = .rateLimited) (fuel : Nat) (pad used : List (List Char))
    (cache : Cache) :
    agentLoop ctx (fuel + 1) i pad used cache = (.rateLimit, cache) := by
  simp [agentLoop, hg]

/-- `if not agent_response:` — an empty completion text is treated exactly
like a rate-limit failure. -/
theorem agentLoop_empty_text {ctx : AgentCtx} {i : Nat}
    (hg : ctx.gen i = .ok []) (fuel : Nat) (pad used : List (List Char))
    (cache : Cache) :
    agentLoop ctx (fuel + 1) i pad used cache = (.rateLimit, cache) := by
  simp [agentLoop, hg]

/-- The Final-Answer verification for email requests: when the message
mentions email/mail and `send_email` is not in `tools_used`, the loop rejects
the answer, appends the corrective Observation and recurses. -/
theorem agentLoop_email_reject {ctx : AgentCtx} {i : Nat} {t : List Char}
    (hg : ctx.gen i = .ok t) (ht : t ≠ [])
    (hfa : containsSub faMarker t = true)
    (hcond : (containsSub "email".data (lowerStr ctx.message) ||
      containsSub "mail".data (lowerStr ctx.message)) = true)
    {used : List (List Char)}
    (hused : used.any (fun n => n = sendEmailName) = false)
    (fuel : Nat) (pad : List (List Char)) (cache : Cache) :
    agentLoop ctx (fuel + 1) i pad used cache =
      agentLoop ctx fuel (i + 1) ((pad ++ [t]) ++ [emailObs]) used cache := by
  simp [agentLoop, hg, ht, hfa, hcond, hused]

/-- A successful action step: a nonempty result with a nonempty recorded name
appends the Observation and records the parsed name. -/
theorem agentLoop_action_obs {ctx : AgentCtx} {i : Nat} {t res nm : List Char}
    (hg : ctx.gen i = .ok t) (ht : t ≠ [])
    (hfa : containsSub faMarker t = false)
    (hpe : parse_and_execute ctx.exec t = (some res, some nm))
    (hres : res ≠ []) (hnm : nm ≠ [])
    (fuel : Nat) (pad used : List (List Char)) (cache : Cache) :
    agentLoop ctx (fuel + 1) i pad used cache =
      agentLoop ctx fuel (i + 1) ((pad ++ [t]) ++ [obsWrap res]) (used ++ [nm]) cache := by
  simp [agentLoop, hg, ht, hfa, hpe, hres, hnm]

/-- A "tool not found" step: the Observation is appended but no name is
recorded, leaving `tools_used` unchanged. -/
theorem agentLoop_action_obs_noname {ctx : AgentCtx} {i : Nat} {t res : List Char}
    (hg : ctx.gen i = .ok t) (ht : t ≠ [])
    (hfa : containsSub faMarker t = false)
    (hpe : parse_and_execute ctx.exec t = (some res, none))
    (hres : res ≠ [])
    (fuel : Nat) (pad used : List (List Char)) (cache : Cache) :
    agentLoop ctx (fuel + 1) i pad used cache =
      agentLoop ctx fuel (i + 1) ((pad ++ [t]) ++ [obsWrap res]) used cache := by
  simp [agentLoop, hg, ht, hfa, hpe, hres]

/-- The Final-Answer verification for weather requests, reached when the
email guard did not fire. -/
theorem agentLoop_weather_reject {ctx : AgentCtx} {i : Nat} {t : List Char}
    (hg : ctx.gen i = .ok t) (ht : t ≠ [])
    (hfa : containsSub faMarker t = true)
    {used : List (List Char)}
    (hguard : ((containsSub "email".data (lowerStr ctx.message) ||
      containsSub "mail".data (lowerStr ctx.message)) &&
      !(used.any (fun n => n = sendEmailName))) = false)
    (hw : (containsSub "weather".data (lowerStr ctx.message) &&
      !(used.any (fun n => n = getWeatherName))) = true)
    (fuel : Nat) (pad : List (List Char)) (cache : Cache) :
    agentLoop ctx (fuel + 1) i pad used cache =
      agentLoop ctx fuel (i + 1) ((pad ++ [t]) ++ [weatherObs]) used cache := by
  simp [agentLoop, hg, ht, hfa, hguard, hw]

/-- An accepted Final Answer: both verification guards pass, the answer is
extracted and (for cache-enabled no-tools requests) written to the cache. -/
theorem agentLoop_accept {ctx : AgentCtx} {i : Nat} {t : List Char}
    (hg : ctx.gen i = .ok t) (ht : t ≠ [])
    (hfa : containsSub faMarker t = true)
    {used : List (List Char)}
    (hguard : ((containsSub "email".data (lowerStr ctx.message) ||
      containsSub "mail".data (lowerStr ctx.message)) &&
      !(used.any (fun n => n = sendEmailName))) = false)
    (hw : (containsSub "weather".data (lowerStr ctx.message) &&
      !(used.any (fun n => n = getWeatherName))) = false)
    (fuel : Nat) (pad : List (List Char)) (cache : Cache) :
    agentLoop ctx (fuel + 1) i pad used cache =
      (.answered (extract_final_answer t) (i + 1) (pad ++ [t]) used,
        if ctx.cacheEnabled && !(requires_tools ctx.message) then
          insertCache cache (cacheKey ctx.message) (extract_final_answer t)
        else cache) := by
  simp [agentLoop, hg, ht, hfa, hguard, hw]

/-- A malformed step (no `Action:`/`Action Input:` pair): the corrective
format Observation is appended and the loop continues. -/
theorem agentLoop_malformed {ctx : AgentCtx} {i : Nat} {t : List Char}
    {name? : Option (List Char)}
    (hg : ctx.gen i = .ok t) (ht : t ≠ [])
    (hfa : containsSub faMarker t = false)
    (hpe : parse_and_execute ctx.exec t = (none, name?))
    (fuel : Nat) (pad used : List (List Char)) (cache : Cache) :
    agentLoop ctx (fuel + 1) i pad used cache =
      agentLoop ctx fuel (i + 1) ((pad ++ [t]) ++ [formatObs]) used cache := by
  simp [agentLoop, hg, ht, hfa, hpe]

/-- A nonempty result whose recorded parsed name is the empty string is not
appended to `tools_used` (`if action_name:` is falsy on `""`). -/
theorem agentLoop_action_obs_emptyname {ctx : AgentCtx} {i : Nat} {t res : List Char}
    (hg : ctx.gen i = .ok t) (ht : t ≠ [])
    (hfa : containsSub faMarker t = false)
    (hpe : parse_and_execute ctx.exec t = (some res, some []))
    (hres : res ≠ [])
    (fuel : Nat) (pad used : List (List Char)) (cache : Cache) :
    agentLoop ctx (fuel + 1) i pad used cache =
      agentLoop ctx fuel (i + 1) ((pad ++ [t]) ++ [obsWrap res]) used cache := by
  simp [agentLoop, hg, ht, hfa, hpe, hres]

/-- An empty tool result is falsy in `if action_result:`, so the controller
takes the malformed branch even though a tool ran. -/
theorem agentLoop_empty_result {ctx : AgentCtx} {i : Nat} {t : List Char}
    {name? : Option (List Char)}
    (hg : ctx.gen i = .ok t) (ht : t ≠ [])
    (hfa : containsSub faMarker t = false)
    (hpe : parse_and_execute ctx.exec t = (some [], name?))
    (fuel : Nat) (pad used : List (List Char)) (cache : Cache) :
    agentLoop ctx (fuel + 1) i pad used cache =
      agentLoop ctx fuel (i + 1) ((pad ++ [t]) ++ [formatObs]) used cache := by
  simp [agentLoop, hg, ht, hfa, hpe]

/-- Exhaustive case analysis of one loop iteration: the step either fails
(rate limit or exception, with the oracle outcome that caused it), accepts a
Final Answer (with the email guard known to have passed), or recurses with
one appended Observation and `tools_used` either unchanged or extended by one
parsed name. -/
theorem agentLoop_succ_shape (ctx : AgentCtx) (fuel i : Nat)
    (pad used : List (List Char)) (cache : Cache) :
    ((ctx.gen i = .rateLimited ∨ ctx.gen i = .ok []) ∧
      agentLoop ctx (fuel + 1) i pad used cache = (.rateLimit, cache)) ∨
    (∃ e, ctx.gen i = .raised e ∧
      agentLoop ctx (fuel + 1) i pad used cache = (.errored e, cache)) ∨
    (∃ t, ctx.gen i = .ok t ∧ t ≠ [] ∧
      ((containsSub faMarker t = true ∧
        ((containsSub "email".data (lowerStr ctx.message) ||
            containsSub "mail".data (lowerStr ctx.message)) &&
          !(used.any (fun n => n = sendEmailName))) = false ∧
        agentLoop ctx (fuel + 1) i pad used cache =
          (.answered (extract_final_answer t) (i + 1) (pad ++ [t]) used,
            if ctx.cacheEnabled && !(requires_tools ctx.message) then
              insertCache cache (cacheKey ctx.message) (extract_final_answer t)
            else cache)) ∨
      (∃ obs used', (used' = used ∨ ∃ nm, used' = used ++ [nm]) ∧
        agentLoop ctx (fuel + 1) i pad used cache =
          agentLoop ctx fuel (i + 1) ((pad ++ [t]) ++ [obs]) used' cache))) := by
  cases hg : ctx.gen i with
  | rateLimited => exact Or.inl ⟨Or.inl rfl, agentLoop_rateLimited hg _ _ _ _⟩
  | raised e => exact Or.inr (Or.inl ⟨e, rfl, agentLoop_raised hg _ _ _ _⟩)
  | ok t =>
    by_cases ht : t = []
    · subst ht
      exact Or.inl ⟨Or.inr rfl, agentLoop_empty_text hg _ _ _ _⟩
    · refine Or.inr (Or.inr ⟨t, rfl, ht, ?_⟩)
      by_cases hfa : containsSub faMarker t = true
      · by_cases hguard : ((containsSub "email".data (lowerStr ctx.message) ||
            containsSub "mail".data (lowerStr ctx.message)) &&
            !(used.any (fun n => n = sendEmailName))) = true
        · obtain ⟨hcond, hused'⟩ := Bool.and_eq_true_iff.1 hguard
          have hused : used.any (fun n => n = sendEmailName) = false := by
            simpa using hused'
          exact Or.inr ⟨emailObs, used, Or.inl rfl,
            agentLoop_email_reject hg ht hfa hcond hused _ _ _⟩
        · rw [Bool.not_eq_true] at hguard
          by_cases hw : (containsSub "weather".data (lowerStr ctx.message) &&
              !(used.any (fun n => n = getWeatherName))) = true
          · exact Or.inr ⟨weatherObs, used, Or.inl rfl,
              agentLoop_weather_reject hg ht hfa hguard hw _ _ _⟩
          · rw [Bool.not_eq_true] at hw
            exact Or.inl ⟨hfa, hguard, agentLoop_accept hg ht hfa hguard hw _ _ _⟩
      · rw [Bool.not_eq_true] at hfa
        refine Or.inr ?_
        rcases hpe : parse_and_execute ctx.exec t with ⟨res?, name?⟩
        cases res? with
        | none =>
          exact ⟨formatObs, used, Or.inl rfl, agentLoop_malformed hg ht hfa hpe _ _ _ _⟩
        | some res =>
          by_cases hres : res = []
          · subst hres
            exact ⟨formatObs, used, Or.inl rfl,
              agentLoop_empty_result hg ht hfa hpe _ _ _ _⟩
          · cases name? with
            | none =>
              exact ⟨obsWrap res, used, Or.inl rfl,
                agentLoop_action_obs_noname hg ht hfa hpe hres _ _ _ _⟩
            | some nm =>
              by_cases hnm : nm = []
              · subst hnm
                exact ⟨obsWrap res, used, Or.inl rfl,
                  agentLoop_action_obs_emptyname hg ht hfa hpe hres _ _ _ _⟩
              · exact ⟨obsWrap res, used ++ [nm], Or.inr ⟨nm, rfl⟩,
                  agentLoop_action_obs hg ht hfa hpe hres hnm _ _ _ _⟩

/-! ## Invariants of the ReAct loop, by induction on the remaining fuel -/

/-- Email verification invariant: when the message mentions email/mail, an
`answered` result can only arise with `send_email` recorded in
`tools_used`. -/
theorem agentLoop_email_invariant {ctx : AgentCtx}
    (hcond : (containsSub "email".data (lowerStr ctx.message) ||
      containsSub "mail".data (lowerStr ctx.message)) = true) :
    ∀ (fuel i : Nat) (pad used : List (List Char)) (cache : Cache)
      {resp : List Char} {its : Nat} {rs us : List (List Char)} {c' : Cache},
      agentLoop ctx fuel i pad used cache = (.answered resp its rs us, c') →
      us.any (fun n => n = sendEmailName) = true := by
  intro fuel
  induction fuel with
  | zero =>
    intro i pad used cache resp its rs us c' heq
    rw [agentLoop_zero] at heq
    simp [exhaustedResult] at heq
  | succ f ih =>
    intro i pad used cache resp its rs us c' heq
    rcases agentLoop_succ_shape ctx f i pad used cache with
      ⟨_, heq2⟩ | ⟨e, _, heq2⟩ | ⟨t, _, _, ⟨hfa, hguard, heq2⟩ | ⟨obs, used', _, heq2⟩⟩
    · rw [heq2] at heq
      exact absurd heq (by simp)
    · rw [heq2] at heq
      exact absurd heq (by simp)
    · rw [heq2] at heq
      injection heq with h1 _
      injection h1 with _ _ _ hus
      rw [← hus]
      simpa [hcond] using hguard
    · rw [heq2] at heq
      exact ih (i + 1) _ used' cache heq

/-- An accepted answer of a cache-enabled no-tools request leaves the cache
extended with exactly the normalized key and the answer text. -/
theorem agentLoop_answered_cache {ctx : AgentCtx}
    (hc : (ctx.cacheEnabled && !(requires_tools ctx.message)) = true) :
    ∀ (fuel i : Nat) (pad used : List (List Char)) (cache : Cache)
      {resp : List Char} {its : Nat} {rs us : List (List Char)} {c' : Cache},
      agentLoop ctx fuel i pad used cache = (.answered resp its rs us, c') →
      c' = insertCache cache (cacheKey ctx.message) resp := by
  intro fuel
  induction fuel with
  | zero =>
    intro i pad used cache resp its rs us c' heq
    rw [agentLoop_zero] at heq
    simp [exhaustedResult] at heq
  | succ f ih =>
    intro i pad used cache resp its rs us c' heq
    rcases agentLoop_succ_shape ctx f i pad used cache with
      ⟨_, heq2⟩ | ⟨e, _, heq2⟩ | ⟨t, _, _, ⟨hfa, hguard, heq2⟩ | ⟨obs, used', _, heq2⟩⟩
    · rw [heq2] at heq
      exact absurd heq (by simp)
    · rw [heq2] at heq
      exact absurd heq (by simp)
    · rw [heq2] at heq
      injection heq with h1 h2
      injection h1 with hresp _ _ _
      subst hresp
      rw [hc] at h2
      simp only [if_true] at h2
      exact h2.symm
    · rw [heq2] at heq
      exact ih (i + 1) _ used' cache heq

/-- Any reported iteration count is bounded by the starting budget (or is the
constant 5 reported on exhaustion). -/
theorem agentLoop_iterations_bound (ctx : AgentCtx) :
    ∀ (fuel i : Nat) (pad used : List (List Char)) (cache : Cache) (n : Nat),
      (agentLoop ctx fuel i pad used cache).1.iterationsUsed = some n →
      n ≤ i + fuel ∨ n = 5 := by
  intro fuel
  induction fuel with
  | zero =>
    intro i pad used cache n h
    rw [agentLoop_zero] at h
    simp [exhaustedResult, LoopResult.iterationsUsed] at h
    omega
  | succ f ih =>
    intro i pad used cache n h
    rcases agentLoop_succ_shape ctx f i pad used cache with
      ⟨_, heq2⟩ | ⟨e, _, heq2⟩ | ⟨t, _, _, ⟨hfa, hguard, heq2⟩ | ⟨obs, used', _, heq2⟩⟩
    · rw [heq2] at h
      simp [LoopResult.iterationsUsed] at h
    · rw [heq2] at h
      simp [LoopResult.iterationsUsed] at h
    · rw [heq2] at h
      simp only [LoopResult.iterationsUsed, Option.some.injEq] at h
      omega
    · rw [heq2] at h
      rcases ih (i + 1) _ used' cache n h with h1 | h1
      · left
        omega
      · right
        exact h1

/-- The exhausted result always carries the best-effort summary built from
the last scratchpad entry. -/
theorem agentLoop_exhausted_shape (ctx : AgentCtx) :
    ∀ (fuel i : Nat) (pad used : List (List Char)) (cache : Cache)
      {resp : List Char} {rs us : List (List Char)} {c' : Cache},
      agentLoop ctx fuel i pad used cache = (.exhausted resp rs us, c') →
      resp = exhaustedPre ++ rs.getLastD noInfoText := by
  intro fuel
  induction fuel with
  | zero =>
    intro i pad used cache resp rs us c' heq
    simp only [agentLoop_zero, exhaustedResult] at heq
    injection heq with h1 _
    injection h1 with hresp hrs _
    rw [← hresp, hrs]
  | succ f ih =>
    intro i pad used cache resp rs us c' heq
    rcases agentLoop_succ_shape ctx f i pad used cache with
      ⟨_, heq2⟩ | ⟨e, _, heq2⟩ | ⟨t, _, _, ⟨hfa, hguard, heq2⟩ | ⟨obs, used', _, heq2⟩⟩
    · rw [heq2] at heq
      exact absurd heq (by simp)
    · rw [heq2] at heq
      exact absurd heq (by simp)
    · rw [heq2] at heq
      exact absurd heq (by simp)
    · rw [heq2] at heq
      exact ih (i + 1) _ used' cache heq

/-- A rate-limited result is always caused by some oracle outcome below the
budget that was a failure signal or an empty text. -/
theorem agentLoop_rateLimit_source (ctx : AgentCtx) :
    ∀ (fuel i : Nat) (pad used : List (List Char)) (cache : Cache) {c' : Cache},
      agentLoop ctx fuel i pad used cache = (.rateLimit, c') →
      ∃ j, i ≤ j ∧ j < i + fuel ∧
        (ctx.gen j = .rateLimited ∨ ctx.gen j = .ok []) := by
  intro fuel
  induction fuel with
  | zero =>
    intro i pad used cache c' heq
    rw [agentLoop_zero] at heq
    simp [exhaustedResult] at heq
  | succ f ih =>
    intro i pad used cache c' heq
    rcases agentLoop_succ_shape ctx f i pad used cache with
      ⟨hgen, heq2⟩ | ⟨e, _, heq2⟩ | ⟨t, _, _, ⟨hfa, hguard, heq2⟩ | ⟨obs, used', _, heq2⟩⟩
    · exact ⟨i, le_refl i, by omega, hgen⟩
    · rw [heq2] at heq
      exact absurd heq (by simp)
    · rw [heq2] at heq
      exact absurd heq (by simp)
    · rw [heq2] at heq
      obtain ⟨j, h1, h2, h3⟩ := ih (i + 1) _ used' cache heq
      exact ⟨j, by omega, by omega, h3⟩

/-- An errored result is always caused by a raised oracle outcome below the
budget, with the same exception text. -/
theorem agentLoop_errored_source (ctx : AgentCtx) :
    ∀ (fuel i : Nat) (pad used : List (List Char)) (cache : Cache)
      {e : List Char} {c' : Cache},
      agentLoop ctx fuel i pad used cache = (.errored e, c') →
      ∃ j, i ≤ j ∧ j < i + fuel ∧ ctx.gen j = .raised e := by
  intro fuel
  induction fuel with
  | zero =>
    intro i pad used cache e c' heq
    rw [agentLoop_zero] at heq
    simp [exhaustedResult] at heq
  | succ f ih =>
    intro i pad used cache e c' heq
    rcases agentLoop_succ_shape ctx f i pad used cache with
      ⟨_, heq2⟩ | ⟨e0, hgen, heq2⟩ | ⟨t, _, _, ⟨hfa, hguard, heq2⟩ | ⟨obs, used', _, heq2⟩⟩
    · rw [heq2] at heq
      exact absurd heq (by simp)
    · rw [heq2] at heq
      injection heq with h1 _
      injection h1 with he
      subst he
      exact ⟨i, le_refl i, by omega, hgen⟩
    · rw [heq2] at heq
      exact absurd heq (by simp)
    · rw [heq2] at heq
      obtain ⟨j, h1, h2, h3⟩ := ih (i + 1) _ used' cache heq
      exact ⟨j, by omega, by omega, h3⟩

/-- The loop consults the completion oracle only at iterations
`i, …, i + fuel - 1`: two oracles that agree there produce identical runs. -/
theorem agentLoop_gen_agree (g g' : Nat → GenOut) (ex : ToolExec) (b : Bool)
    (m : List Char) :
    ∀ (fuel i : Nat), (∀ j, i ≤ j → j < i + fuel → g j = g' j) →
    ∀ (pad used : List (List Char)) (cache : Cache),
      agentLoop ⟨g, ex, b, m⟩ fuel i pad used cache =
        agentLoop ⟨g', ex, b, m⟩ fuel i pad used cache := by
  intro fuel
  induction fuel with
  | zero =>
    intro i _ pad used cache
    rfl
  | succ f ih =>
    intro i hag pad used cache
    have hgi : g i = g' i := hag i (le_refl i) (by omega)
    have ihn : ∀ (pad used : List (List Char)) (cache : Cache),
        agentLoop ⟨g, ex, b, m⟩ f (i + 1) pad used cache =
          agentLoop ⟨g', ex, b, m⟩ f (i + 1) pad used cache :=
      fun pad used cache => ih (i + 1) (fun j h1 h2 => hag j (by omega) (by omega)) pad used cache
    cases hg' : g' i with
    | raised e =>
      rw [agentLoop_raised (hgi.trans hg') f pad used cache,
        agentLoop_raised hg' f pad used cache]
    | rateLimited =>
      rw [agentLoop_rateLimited (hgi.trans hg') f pad used cache,
        agentLoop_rateLimited hg' f pad used cache]
    | ok t =>
      by_cases ht : t = []
      · subst ht
        rw [agentLoop_empty_text (hgi.trans hg') f pad used cache,
          agentLoop_empty_text hg' f pad used cache]
      · by_cases hfa : containsSub faMarker t = true
        · by_cases hguard : ((containsSub "email".data (lowerStr m) ||
              containsSub "mail".data (lowerStr m)) &&
              !(used.any (fun n => n = sendEmailName))) = true
          · obtain ⟨hcond, hused'⟩ := Bool.and_eq_true_iff.1 hguard
            have hused : used.any (fun n => n = sendEmailName) = false := by
              simpa using hused'
            rw [agentLoop_email_reject (hgi.trans hg') ht hfa hcond hused f pad cache,
              agentLoop_email_reject hg' ht hfa hcond hused f pad cache, ihn]
          · rw [Bool.not_eq_true] at hguard
            by_cases hw : (containsSub "weather".data (lowerStr m) &&
                !(used.any (fun n => n = getWeatherName))) = true
            · rw [agentLoop_weather_reject (hgi.trans hg') ht hfa hguard hw f pad cache,
                agentLoop_weather_reject hg' ht hfa hguard hw f pad cache, ihn]
            · rw [Bool.not_eq_true] at hw
              rw [agentLoop_accept (hgi.trans hg') ht hfa hguard hw f pad cache,
                agentLoop_accept hg' ht hfa hguard hw f pad cache]
        · rw [Bool.not_eq_true] at hfa
          rcases hpe : parse_and_execute ex t with ⟨res?, name?⟩
          cases res? with
          | none =>
            rw [agentLoop_malformed (hgi.trans hg') ht hfa hpe f pad used cache,
              agentLoop_malformed hg' ht hfa hpe f pad used cache, ihn]
          | some res =>
            by_cases hres : res = []
            · subst hres
              rw [agentLoop_empty_result (hgi.trans hg') ht hfa hpe f pad used cache,
                agentLoop_empty_result hg' ht hfa hpe f pad used cache, ihn]
            · cases name? with
              | none =>
                rw [agentLoop_action_obs_noname (hgi.trans hg') ht hfa hpe hres f pad used cache,
                  agentLoop_action_obs_noname hg' ht hfa hpe hres f pad used cache, ihn]
              | some nm =>
                by_cases hnm : nm = []
                · subst hnm
                  rw [agentLoop_action_obs_emptyname (hgi.trans hg') ht hfa hpe hres f pad used cache,
                    agentLoop_action_obs_emptyname hg' ht hfa hpe hres f pad used cache, ihn]
                · rw [agentLoop_action_obs (hgi.trans hg') ht hfa hpe hres hnm f pad used cache,
                    agentLoop_action_obs hg' ht hfa hpe hres hnm f pad used cache, ihn]

/-! ## Retry wrapper lemmas -/

theorem retryAux_always_rate {client : Nat → Except (List Char) (List Char)}
    (hcl : ∀ j, isRateErr (client j) = true) :
    ∀ (remaining attempt : Nat),
      retryAux client remaining attempt = (.failSignal, remaining) := by
  intro remaining
  induction remaining with
  | zero => intro attempt; rfl
  | succ r ih =>
    intro attempt
    have h := hcl attempt
    cases hc : client attempt with
    | ok t =>
      rw [hc] at h
      simp [isRateErr] at h
    | error e =>
      rw [hc] at h
      simp only [isRateErr] at h
      have hunfold : retryAux client (r + 1) attempt =
          if 1 ≤ r then
            ((retryAux client r (attempt + 1)).1, (retryAux client r (attempt + 1)).2 + 1)
          else (.failSignal, 1) := by
        simp only [retryAux, hc]
        rw [if_pos h]
      rw [hunfold]
      by_cases hr : 1 ≤ r
      · rw [if_pos hr, ih (attempt + 1)]
      · have hr0 : r = 0 := by omega
        subst hr0
        rw [if_neg hr]

/-! ## `process_message` dispatch lemmas -/

theorem process_message_cache_hit (ctx : AgentCtx) {cache : Cache} {v : List Char}
    (hc : (ctx.cacheEnabled && !(requires_tools ctx.message)) = true)
    (hl : lookupCache cache (cacheKey ctx.message) = some v) :
    process_message ctx cache = (.cachedHit v, cache) := by
  unfold process_message
  rw [if_pos hc, hl]

theorem process_message_no_hit (ctx : AgentCtx) {cache : Cache}
    (hl : lookupCache cache (cacheKey ctx.message) = none) :
    process_message ctx cache = agentLoop ctx 5 0 [] [] cache := by
  unfold process_message
  by_cases hc : (ctx.cacheEnabled && !(requires_tools ctx.message)) = true
  · rw [if_pos hc, hl]
  · rw [if_neg hc]

theorem process_message_no_cache (ctx : AgentCtx) {cache : Cache}
    (hc : (ctx.cacheEnabled && !(requires_tools ctx.message)) = false) :
    process_message ctx cache = agentLoop ctx 5 0 [] [] cache := by
  unfold process_message
  rw [if_neg (by simp [hc])]

/-- Every `process_message` result is either a cache hit or the result of
the five-iteration loop on an empty scratchpad. -/
theorem process_message_inv (ctx : AgentCtx) (cache : Cache) :
    (∃ v, lookupCache cache (cacheKey ctx.message) = some v ∧
      (ctx.cacheEnabled && !(requires_tools ctx.message)) = true ∧
      process_message ctx cache = (.cachedHit v, cache)) ∨
    process_message ctx cache = agentLoop ctx 5 0 [] [] cache := by
  by_cases hc : (ctx.cacheEnabled && !(requires_tools ctx.message)) = true
  · cases hl : lookupCache cache (cacheKey ctx.message) with
    | some v => exact Or.inl ⟨v, rfl, hc, process_message_cache_hit ctx hc hl⟩
    | none => exact Or.inr (process_message_no_hit ctx hl)
  · rw [Bool.not_eq_true] at hc
    exact Or.inr (process_message_no_cache ctx hc)

/-! ## Claim theorems -/

/-- C3: if the completion endpoint raises a rate-limit error (message
containing "quota" or "rate") on every attempt, `_generate_with_retry`
invokes it exactly `max_retries` times (default 3) and returns `None`
(the failure signal) instead of raising. -/
theorem generate_with_retry_rate_exhaustion
    (client : Nat → Except (List Char) (List Char)) (maxRetries : Nat)
    (hcl : ∀ j, isRateErr (client j) = true) :
    generate_with_retry client maxRetries = (.failSignal, maxRetries) :=
  retryAux_always_rate hcl maxRetries 0

theorem generate_with_retry_rate_exhaustion_witness :
    generate_with_retry (fun _ => .error "429 quota exceeded, rate limited".data) 3 =
      (.failSignal, 3) :=
  generate_with_retry_rate_exhaustion _ 3 (fun _ => by decide)

/-- C4: an error whose message contains neither "quota" nor "rate"
(case-insensitively) is re-raised after a single attempt: the endpoint is
invoked once and the error propagates unchanged. -/
theorem generate_with_retry_nonrate_propagates
    (client : Nat → Except (List Char) (List Char)) (e : List Char)
    (maxRetries : Nat) (hm : 1 ≤ maxRetries)
    (h0 : client 0 = .error e)
    (hnr : (containsSub "quota".data (lowerStr e) ||
      containsSub "rate".data (lowerStr e)) = false) :
    generate_with_retry client maxRetries = (.raised e, 1) := by
  obtain ⟨m, rfl⟩ : ∃ m, maxRetries = m + 1 := ⟨maxRetries - 1, by omega⟩
  simp [generate_with_retry, retryAux, h0, hnr]

theorem generate_with_retry_nonrate_propagates_witness :
    generate_with_retry (fun _ => .error "400 invalid API key".data) 3 =
      (.raised "400 invalid API key".data, 1) :=
  generate_with_retry_nonrate_propagates _ _ 3 (by decide) rfl (by decide)

/-- C2: for any completion text containing `Final Answer:` — decomposed as
`pre ++ "Final Answer:" ++ r` with no further occurrence in `r`, so that `r`
is exactly the text after the last occurrence — the extracted answer is `r`
truncated before any subsequent `Thought:`/`Action:` marker and trimmed of
surrounding whitespace. -/
theorem extract_final_answer_last_occurrence (resp pre r : List Char)
    (hsplit : resp = pre ++ faMarker ++ r)
    (hlast : containsSub faMarker r = false) :
    extract_final_answer resp = trim (cutMarkers r) := by
  subst hsplit
  exact extract_final_answer_closed_form hlast

theorem extract_final_answer_last_occurrence_witness :
    extract_final_answer
        ("Thought: t\nFinal Answer: no\nFinal Answer:  done it \nThought: more".data) =
      trim (cutMarkers "  done it \nThought: more".data) ∧
    trim (cutMarkers "  done it \nThought: more".data) = "done it".data :=
  ⟨extract_final_answer_last_occurrence _
      ("Thought: t\nFinal Answer: no\n".data) ("  done it \nThought: more".data)
      (by decide) (by decide),
    by decide⟩

/-- C1: for every request whose lower-cased message contains "email" or
"mail", a model response containing `Final Answer:` while `send_email` is
absent from `tools_used` does not terminate the loop: the corrective
Observation is appended and iteration continues (first conjunct, one fuel
unit consumed, so this repeats until `send_email` appears or the
`max_iterations = 5` budget runs out); consequently any `answered` result of
such a request has `send_email` in `tools_used` (second conjunct). -/
theorem email_final_answer_rejected :
    (∀ (ctx : AgentCtx) (fuel i : Nat) (pad used : List (List Char))
      (cache : Cache) (t : List Char),
      (containsSub "email".data (lowerStr ctx.message) ||
        containsSub "mail".data (lowerStr ctx.message)) = true →
      used.any (fun n => n = sendEmailName) = false →
      ctx.gen i = .ok t → t ≠ [] → containsSub faMarker t = true →
      agentLoop ctx (fuel + 1) i pad used cache =
        agentLoop ctx fuel (i + 1) ((pad ++ [t]) ++ [emailObs]) used cache) ∧
    (∀ (ctx : AgentCtx) (cache : Cache) (resp : List Char) (its : Nat)
      (rs us : List (List Char)) (c' : Cache),
      (containsSub "email".data (lowerStr ctx.message) ||
        containsSub "mail".data (lowerStr ctx.message)) = true →
      process_message ctx cache = (.answered resp its rs us, c') →
      us.any (fun n => n = sendEmailName) = true) := by
  constructor
  · intro ctx fuel i pad used cache t hcond hused hg ht hfa
    exact agentLoop_email_reject hg ht hfa hcond hused fuel pad cache
  · intro ctx cache resp its rs us c' hcond heq
    rcases process_message_inv ctx cache with ⟨v, _, _, hpe⟩ | hpe
    · rw [hpe] at heq
      exact absurd heq (by simp)
    · rw [hpe] at heq
      exact agentLoop_email_invariant hcond 5 0 [] [] cache heq

def ctxC1a : AgentCtx :=
  ⟨fun _ => .ok "Final Answer: Sent!".data, fun _ _ => .ok "done".data, true,
    "email this to john".data⟩

def ctxC1b : AgentCtx :=
  ⟨fun i => if i = 0 then .ok "Action: send_email\nAction Input: x".data
      else .ok "Final Answer: Sent!".data,
    fun _ _ => .ok "done".data, true, "email this to john".data⟩

theorem email_final_answer_rejected_witness :
    (agentLoop ctxC1a 5 0 [] [] [] =
      agentLoop ctxC1a 4 1 (([] ++ ["Final Answer: Sent!".data]) ++ [emailObs]) [] []) ∧
    (["send_email".data] : List (List Char)).any (fun n => n = sendEmailName) = true :=
  ⟨email_final_answer_rejected.1 ctxC1a 4 0 [] [] []
      ("Final Answer: Sent!".data) (by decide) (by decide) rfl (by decide) (by decide),
    email_final_answer_rejected.2 ctxC1b [] "Sent!".data 2
      ["Action: send_email\nAction Input: x".data, obsWrap "done".data,
        "Final Answer: Sent!".data]
      ["send_email".data] [] (by decide) (by decide)⟩

theorem lookupCache_insert (c : Cache) (k v : List Char) :
    lookupCache (insertCache c k v) k = some v := by
  simp [lookupCache, insertCache]

/-! ## Case/whitespace invariance of normalization and classification

These lemmas make precise that a message differing from another only in
letter case and surrounding whitespace has the same cache key
(`message.lower().strip()`) and the same `_requires_tools` classification. -/

theorem toLower_ws {c : Char} (h : isWS c = true) : Char.toLower c = c := by
  rcases ws_cases h with rfl | rfl | rfl | rfl | rfl | rfl <;> rfl

theorem ltrim_append_all {w : List Char} (hw : ∀ c ∈ w, isWS c = true)
    (x : List Char) : ltrim (w ++ x) = ltrim x :=
  lstripBy_append_all w hw x

theorem ltrim_eq_nil_iff (y : List Char) :
    ltrim y = [] ↔ ∀ c ∈ y, isWS c = true := by
  induction y with
  | nil => simp [ltrim, lstripBy]
  | cons c cs ih =>
    by_cases hc : isWS c = true
    · rw [ltrim_cons_pos cs hc, ih]
      constructor
      · intro h d hd
        rcases List.mem_cons.1 hd with rfl | hd2
        · exact hc
        · exact h d hd2
      · intro h d hd
        exact h d (by simp [hd])
    · rw [Bool.not_eq_true] at hc
      rw [ltrim_cons_neg cs hc]
      constructor
      · intro h
        exact absurd h (by simp)
      · intro h
        have h2 := h c (by simp)
        rw [h2] at hc
        exact absurd hc (by simp)

theorem ltrim_append_of_ne {y : List Char} (hy : ltrim y ≠ []) (z : List Char) :
    ltrim (y ++ z) = ltrim y ++ z := by
  induction y with
  | nil => exact absurd rfl hy
  | cons c cs ih =>
    by_cases hc : isWS c = true
    · have hy' : ltrim cs ≠ [] := by
        rw [ltrim_cons_pos cs hc] at hy
        exact hy
      rw [List.cons_append, ltrim_cons_pos (cs ++ z) hc, ih hy', ltrim_cons_pos cs hc]
    · rw [Bool.not_eq_true] at hc
      rw [List.cons_append, ltrim_cons_neg (cs ++ z) hc, ltrim_cons_neg cs hc]
      rfl

theorem trim_append_ws_left {w : List Char} (hw : ∀ c ∈ w, isWS c = true)
    (y : List Char) : trim (w ++ y) = trim y := by
  show rtrim (ltrim (w ++ y)) = rtrim (ltrim y)
  rw [ltrim_append_all hw]

theorem trim_append_ws_right {w : List Char} (hw : ∀ c ∈ w, isWS c = true)
    (y : List Char) : trim (y ++ w) = trim y := by
  by_cases hy : ltrim y = []
  · have hally : ∀ c ∈ y, isWS c = true := (ltrim_eq_nil_iff y).1 hy
    have h1 : ltrim (y ++ w) = ltrim w := ltrim_append_all hally w
    have h2 : ltrim w = [] := (ltrim_eq_nil_iff w).2 hw
    show rtrim (ltrim (y ++ w)) = rtrim (ltrim y)
    rw [h1, h2, hy]
  · show rtrim (ltrim (y ++ w)) = rtrim (ltrim y)
    rw [ltrim_append_of_ne hy, rtrim_append_allWS hw]

theorem cacheKey_ws_case_invariant (w1 w2 core msg : List Char)
    (hw1 : ∀ d ∈ w1, isWS d = true) (hw2 : ∀ d ∈ w2, isWS d = true)
    (hlow : lowerStr core = lowerStr msg) :
    cacheKey ((w1 ++ core) ++ w2) = cacheKey msg := by
  have hlw1 : ∀ d ∈ lowerStr w1, isWS d = true := by
    intro d hd
    obtain ⟨e, he, rfl⟩ := List.mem_map.1 hd
    rw [toLower_ws (hw1 e he)]
    exact hw1 e he
  have hlw2 : ∀ d ∈ lowerStr w2, isWS d = true := by
    intro d hd
    obtain ⟨e, he, rfl⟩ := List.mem_map.1 hd
    rw [toLower_ws (hw2 e he)]
    exact hw2 e he
  have hmap : lowerStr ((w1 ++ core) ++ w2) =
      (lowerStr w1 ++ lowerStr core) ++ lowerStr w2 := by
    simp [lowerStr]
  unfold cacheKey
  rw [hmap, hlow, trim_append_ws_right hlw2, trim_append_ws_left hlw1]

theorem contains_append_left {p a : List Char} (b : List Char)
    (h : containsSub p a = true) : containsSub p (a ++ b) = true := by
  rcases (containsSub_iff p a).1 h with ⟨u, v, rfl⟩
  exact (containsSub_iff _ _).2 ⟨u, v ++ b, by simp [List.append_assoc]⟩

/-- If a pattern starting with the non-whitespace `c` occurs in `w ++ rest`
with all-whitespace `w`, the occurrence cannot start inside `w`. -/
theorem ws_prefix_le {c : Char} {k1 w rest u v : List Char} (hc : isWS c = false)
    (hw : ∀ d ∈ w, isWS d = true)
    (heq : w ++ rest = u ++ ((c :: k1) ++ v)) : w.length ≤ u.length := by
  by_contra hlt
  push_neg at hlt
  have hdrop := congrArg (List.drop u.length) heq
  rw [List.drop_append_eq_append_drop, List.drop_append_eq_append_drop] at hdrop
  simp only [Nat.sub_eq_zero_of_le (Nat.le_of_lt hlt), Nat.sub_self,
    List.drop_zero, List.drop_length, List.nil_append] at hdrop
  cases hwd : w.drop u.length with
  | nil =>
    have hlen := congrArg List.length hwd
    rw [List.length_drop] at hlen
    simp at hlen
    omega
  | cons d w' =>
    rw [hwd, List.cons_append, List.cons_append] at hdrop
    injection hdrop with h1 _
    have hd : d ∈ w := List.drop_subset u.length w (by rw [hwd]; exact List.mem_cons_self d w')
    have hdw := hw d hd
    rw [h1] at hdw
    rw [hdw] at hc
    exact absurd hc (by simp)

/-- Is the keyword nonempty with non-whitespace first and last characters?
Every keyword of `tool_keywords` satisfies this. -/
def nonWSEnds (k : List Char) : Bool :=
  match k with
  | [] => false
  | c :: _ => !(isWS c) && !(isWS (k.getLastD 'x'))

theorem nonWSEnds_decomp {k : List Char} (h : nonWSEnds k = true) :
    ∃ c k1, k = c :: k1 ∧ isWS c = false ∧
      ∃ k2 clast, k = k2 ++ [clast] ∧ isWS clast = false := by
  cases k with
  | nil => simp [nonWSEnds] at h
  | cons c ks =>
    simp only [nonWSEnds, Bool.and_eq_true, Bool.not_eq_true'] at h
    obtain ⟨h1, h2⟩ := h
    have hne : (c :: ks) ≠ [] := by simp
    refine ⟨c, ks, rfl, h1, (c :: ks).dropLast, (c :: ks).getLastD 'x', ?_, h2⟩
    rw [List.getLastD_eq_getLast?, List.getLast?_eq_getLast _ hne, Option.getD_some]
    exact (List.dropLast_append_getLast hne).symm

/-- Occurrences of a keyword with non-whitespace end characters are
insensitive to all-whitespace padding around the text. -/
theorem contains_strip_ws {k : List Char} (hends : nonWSEnds k = true)
    {w1 w2 x : List Char}
    (hw1 : ∀ d ∈ w1, isWS d = true) (hw2 : ∀ d ∈ w2, isWS d = true) :
    containsSub k ((w1 ++ x) ++ w2) = containsSub k x := by
  obtain ⟨c, k1, hk1, hc, k2, clast, hk2, hcl⟩ := nonWSEnds_decomp hends
  cases hx : containsSub k x with
  | true => exact contains_append_left w2 (containsSub_append_right w1 hx)
  | false =>
    by_contra hcon
    rw [Bool.not_eq_false] at hcon
    obtain ⟨u, v, heqv⟩ := (containsSub_iff _ _).1 hcon
    have heq1 : w1 ++ (x ++ w2) = u ++ (k ++ v) := by
      rw [← List.append_assoc, ← List.append_assoc]
      exact heqv
    have hu : w1.length ≤ u.length := by
      rw [hk1] at heq1
      exact ws_prefix_le hc hw1 heq1
    have hr : w2.reverse ++ (x.reverse ++ w1.reverse) =
        v.reverse ++ ((clast :: k2.reverse) ++ u.reverse) := by
      have h0 := congrArg List.reverse heqv
      rw [hk2] at h0
      simp only [List.reverse_append, List.reverse_cons, List.reverse_nil,
        List.nil_append, List.append_assoc, List.singleton_append] at h0 ⊢
      exact h0
    have hv : w2.length ≤ v.length := by
      have h0 := ws_prefix_le hcl (fun d hd => hw2 d (List.mem_reverse.1 hd)) hr
      simpa using h0
    -- the occurrence lies inside `x`
    have htake : w1 = u.take w1.length := by
      calc w1 = (w1 ++ (x ++ w2)).take w1.length := (List.take_left _ _).symm
        _ = (u ++ (k ++ v)).take w1.length := by rw [heq1]
        _ = u.take w1.length ++ (k ++ v).take (w1.length - u.length) :=
            List.take_append_eq_append_take
        _ = u.take w1.length := by
            rw [Nat.sub_eq_zero_of_le hu, List.take_zero, List.append_nil]
    have hu2 : u = w1 ++ u.drop w1.length := by
      conv_lhs => rw [← List.take_append_drop w1.length u]
      rw [← htake]
    have heq2 : x ++ w2 = u.drop w1.length ++ (k ++ v) := by
      have h5 : w1 ++ (x ++ w2) = w1 ++ (u.drop w1.length ++ (k ++ v)) := by
        rw [heq1]
        conv_lhs => rw [hu2]
        rw [List.append_assoc]
      exact List.append_cancel_left h5
    have hq : (u.drop w1.length).length + k.length ≤ x.length := by
      have hlen := congrArg List.length heq2
      simp only [List.length_append] at hlen
      omega
    have hdropv : v = x.drop ((u.drop w1.length).length + k.length) ++ w2 := by
      have h3 : x ++ w2 = (u.drop w1.length ++ k) ++ v := by
        rw [heq2, List.append_assoc]
      have h4 := congrArg (List.drop (u.drop w1.length ++ k).length) h3
      rw [List.drop_left, List.drop_append_eq_append_drop, List.length_append] at h4
      rw [Nat.sub_eq_zero_of_le hq, List.drop_zero] at h4
      exact h4.symm
    have hx2 : x = u.drop w1.length ++ (k ++ x.drop ((u.drop w1.length).length + k.length)) := by
      have h6 : x ++ w2 =
          (u.drop w1.length ++ (k ++ x.drop ((u.drop w1.length).length + k.length))) ++ w2 := by
        rw [heq2, hdropv]
        simp [List.append_assoc]
      exact List.append_cancel_right h6
    have hcx : containsSub k x = true :=
      (containsSub_iff _ _).2
        ⟨u.drop w1.length, x.drop ((u.drop w1.length).length + k.length), by
          rw [List.append_assoc]
          exact hx2⟩
    rw [hcx] at hx
    exact absurd hx (by simp)

theorem any_ext {α : Type} (p q : α → Bool) :
    ∀ l : List α, (∀ x ∈ l, p x = q x) → l.any p = l.any q := by
  intro l
  induction l with
  | nil => intro _; rfl
  | cons x xs ih =>
    intro h
    simp only [List.any_cons]
    rw [h x (by simp), ih (fun y hy => h y (by simp [hy]))]

theorem all_keywords_nonWSEnds :
    ∀ ck ∈ tool_keywords, ∀ k ∈ ck.2, nonWSEnds k = true := by decide

theorem requires_tools_ws_case_invariant (w1 w2 core msg : List Char)
    (hw1 : ∀ d ∈ w1, isWS d = true) (hw2 : ∀ d ∈ w2, isWS d = true)
    (hlow : lowerStr core = lowerStr msg) :
    requires_tools ((w1 ++ core) ++ w2) = requires_tools msg := by
  have hlw1 : ∀ d ∈ lowerStr w1, isWS d = true := by
    intro d hd
    obtain ⟨e, he, rfl⟩ := List.mem_map.1 hd
    rw [toLower_ws (hw1 e he)]
    exact hw1 e he
  have hlw2 : ∀ d ∈ lowerStr w2, isWS d = true := by
    intro d hd
    obtain ⟨e, he, rfl⟩ := List.mem_map.1 hd
    rw [toLower_ws (hw2 e he)]
    exact hw2 e he
  have hmap : lowerStr ((w1 ++ core) ++ w2) =
      (lowerStr w1 ++ lowerStr core) ++ lowerStr w2 := by
    simp [lowerStr]
  unfold requires_tools
  apply any_ext
  intro ck hck
  apply any_ext
  intro k hk
  rw [hmap, hlow]
  exact contains_strip_ws (all_keywords_nonWSEnds ck hck k hk) hlw1 hlw2

/-- C6: an accepted Final Answer of a cache-enabled request classified as
not requiring tools is stored under the lower-cased, trimmed message text;
a subsequent request whose message differs only in letter case and
surrounding whitespace — written `(w1 ++ core) ++ w2` with all-whitespace
`w1, w2` and `core` a case variant of the first message — returns the
identical cached text with `iterations = 0`, for every completion oracle:
the quantification over `gen2` expresses that no completion call is
consulted. -/
theorem cache_roundtrip_normalized (gen : Nat → GenOut) (exec : ToolExec)
    (msg : List Char) (cache : Cache) (resp : List Char) (its : Nat)
    (rs us : List (List Char)) (c' : Cache)
    (hreq : requires_tools msg = false)
    (heq : process_message ⟨gen, exec, true, msg⟩ cache = (.answered resp its rs us, c'))
    (w1 w2 core : List Char)
    (hw1 : ∀ d ∈ w1, isWS d = true) (hw2 : ∀ d ∈ w2, isWS d = true)
    (hlow : lowerStr core = lowerStr msg) :
    ∀ (gen2 : Nat → GenOut) (exec2 : ToolExec),
      process_message ⟨gen2, exec2, true, (w1 ++ core) ++ w2⟩ c' = (.cachedHit resp, c') ∧
      (LoopResult.cachedHit resp).iterationsUsed = some 0 := by
  intro gen2 exec2
  have hreq2 : requires_tools ((w1 ++ core) ++ w2) = false := by
    rw [requires_tools_ws_case_invariant w1 w2 core msg hw1 hw2 hlow]
    exact hreq
  have hkey : cacheKey ((w1 ++ core) ++ w2) = cacheKey msg :=
    cacheKey_ws_case_invariant w1 w2 core msg hw1 hw2 hlow
  have hc1 : ((⟨gen, exec, true, msg⟩ : AgentCtx).cacheEnabled &&
      !(requires_tools (⟨gen, exec, true, msg⟩ : AgentCtx).message)) = true := by
    simp [hreq]
  have hcache : c' = insertCache cache (cacheKey msg) resp := by
    rcases process_message_inv ⟨gen, exec, true, msg⟩ cache with ⟨v, _, _, hpe⟩ | hpe
    · rw [hpe] at heq
      exact absurd heq (by simp)
    · rw [hpe] at heq
      exact agentLoop_answered_cache hc1 5 0 [] [] cache heq
  have hc2 : ((⟨gen2, exec2, true, (w1 ++ core) ++ w2⟩ : AgentCtx).cacheEnabled &&
      !(requires_tools (⟨gen2, exec2, true, (w1 ++ core) ++ w2⟩ : AgentCtx).message)) = true := by
    simp only [hreq2]
    rfl
  have hl2 : lookupCache c'
      (cacheKey (⟨gen2, exec2, true, (w1 ++ core) ++ w2⟩ : AgentCtx).message) =
      some resp := by
    show lookupCache c' (cacheKey ((w1 ++ core) ++ w2)) = some resp
    rw [hkey, hcache]
    exact lookupCache_insert cache (cacheKey msg) resp
  exact ⟨process_message_cache_hit _ hc2 hl2, rfl⟩

theorem cache_roundtrip_normalized_witness :
    process_message ⟨fun _ => .raised "boom".data, fun _ _ => .ok "r".data, true,
        ("  ".data ++ "Hullo There".data) ++ " ".data⟩
        [("hullo there".data, "hey".data)] =
      (.cachedHit "hey".data, [("hullo there".data, "hey".data)]) ∧
    (LoopResult.cachedHit "hey".data).iterationsUsed = some 0 :=
  cache_roundtrip_normalized (fun _ => .ok "Final Answer: hey".data)
    (fun _ _ => .ok "r".data) "hullo there".data [] "hey".data 1
    ["Final Answer: hey".data] [] [("hullo there".data, "hey".data)]
    (by decide) (by decide) "  ".data " ".data "Hullo There".data
    (by decide) (by decide) (by decide)
    (fun _ => .raised "boom".data) (fun _ _ => .ok "r".data)

/-- C7: the loop makes at most `max_iterations = 5` model calls — the result
depends only on the first five oracle outcomes (first conjunct) and every
reported iteration count is at most 5 (second conjunct); when the ceiling is
exhausted without an accepted Final Answer the result reports
`success = true`, an iteration count equal to the ceiling, and a response
carrying the last scratchpad entry as a best-effort summary (third
conjunct). -/
theorem loop_iteration_ceiling :
    (∀ (g g' : Nat → GenOut) (ex : ToolExec) (b : Bool) (m : List Char)
      (cache : Cache),
      (∀ j, j < 5 → g j = g' j) →
      process_message ⟨g, ex, b, m⟩ cache = process_message ⟨g', ex, b, m⟩ cache) ∧
    (∀ (ctx : AgentCtx) (cache : Cache) (n : Nat),
      (process_message ctx cache).1.iterationsUsed = some n → n ≤ 5) ∧
    (∀ (ctx : AgentCtx) (cache : Cache) (resp : List Char)
      (rs us : List (List Char)) (c' : Cache),
      process_message ctx cache = (.exhausted resp rs us, c') →
      resp = exhaustedPre ++ rs.getLastD noInfoText ∧
      (LoopResult.exhausted resp rs us).success = true ∧
      (LoopResult.exhausted resp rs us).iterationsUsed = some 5) := by
  refine ⟨?_, ?_, ?_⟩
  · intro g g' ex b m cache hag
    have hloop := agentLoop_gen_agree g g' ex b m 5 0
      (fun j _ h2 => hag j (by omega)) [] [] cache
    by_cases hc : ((⟨g, ex, b, m⟩ : AgentCtx).cacheEnabled &&
        !(requires_tools (⟨g, ex, b, m⟩ : AgentCtx).message)) = true
    · cases hl : lookupCache cache (cacheKey (⟨g, ex, b, m⟩ : AgentCtx).message) with
      | some v =>
        rw [process_message_cache_hit ⟨g, ex, b, m⟩ hc hl,
          process_message_cache_hit ⟨g', ex, b, m⟩ hc hl]
      | none =>
        rw [process_message_no_hit ⟨g, ex, b, m⟩ hl,
          process_message_no_hit ⟨g', ex, b, m⟩ hl, hloop]
    · rw [Bool.not_eq_true] at hc
      rw [process_message_no_cache ⟨g, ex, b, m⟩ hc,
        process_message_no_cache ⟨g', ex, b, m⟩ hc, hloop]
  · intro ctx cache n h
    rcases process_message_inv ctx cache with ⟨v, _, _, hpe⟩ | hpe
    · rw [hpe] at h
      simp [LoopResult.iterationsUsed] at h
      omega
    · rw [hpe] at h
      rcases agentLoop_iterations_bound ctx 5 0 [] [] cache n h with h1 | h1 <;> omega
  · intro ctx cache resp rs us c' heq
    rcases process_message_inv ctx cache with ⟨v, _, _, hpe⟩ | hpe
    · rw [hpe] at heq
      exact absurd heq (by simp)
    · rw [hpe] at heq
      exact ⟨agentLoop_exhausted_shape ctx 5 0 [] [] cache heq, rfl, rfl⟩

set_option maxRecDepth 4000 in
theorem loop_iteration_ceiling_witness :
    (process_message ⟨fun _ => .ok "Final Answer: hi".data, fun _ _ => .ok "r".data,
        true, "qqq".data⟩ [] =
      process_message ⟨fun j => if j < 5 then .ok "Final Answer: hi".data
          else .raised "late".data,
        fun _ _ => .ok "r".data, true, "qqq".data⟩ []) ∧
    1 ≤ 5 ∧
    ((exhaustedPre ++ emailObs : List Char) =
        exhaustedPre ++
          (["Final Answer: Sent!".data, emailObs, "Final Answer: Sent!".data, emailObs,
            "Final Answer: Sent!".data, emailObs, "Final Answer: Sent!".data, emailObs,
            "Final Answer: Sent!".data, emailObs] : List (List Char)).getLastD noInfoText ∧
      (LoopResult.exhausted (exhaustedPre ++ emailObs)
          ["Final Answer: Sent!".data, emailObs, "Final Answer: Sent!".data, emailObs,
            "Final Answer: Sent!".data, emailObs, "Final Answer: Sent!".data, emailObs,
            "Final Answer: Sent!".data, emailObs] []).success = true ∧
      (LoopResult.exhausted (exhaustedPre ++ emailObs)
          ["Final Answer: Sent!".data, emailObs, "Final Answer: Sent!".data, emailObs,
            "Final Answer: Sent!".data, emailObs, "Final Answer: Sent!".data, emailObs,
            "Final Answer: Sent!".data, emailObs] []).iterationsUsed = some 5) :=
  ⟨loop_iteration_ceiling.1 _ _ (fun _ _ => .ok "r".data) true "qqq".data []
      (fun j hj => by simp [hj]),
    loop_iteration_ceiling.2.1 ⟨fun _ => .ok "Final Answer: hi".data,
      fun _ _ => .ok "r".data, true, "zzz".data⟩ [] 1 (by decide),
    loop_iteration_ceiling.2.2 ctxC1a [] (exhaustedPre ++ emailObs)
      ["Final Answer: Sent!".data, emailObs, "Final Answer: Sent!".data, emailObs,
        "Final Answer: Sent!".data, emailObs, "Final Answer: Sent!".data, emailObs,
        "Final Answer: Sent!".data, emailObs] [] [] (by decide)⟩

theorem containsSub_joinSep (t : List Char) (sep : List Char) :
    ∀ l : List (List Char), t ∈ l → containsSub t (joinSep sep l) = true := by
  intro l
  induction l with
  | nil => intro ht; cases ht
  | cons x xs ih =>
    intro ht
    cases xs with
    | nil =>
      have hx : t = x := by simpa using ht
      subst hx
      exact containsSub_of_isPre (isPre_self t)
    | cons y ys =>
      rcases List.mem_cons.1 ht with rfl | hmem
      · refine containsSub_of_isPre ((isPre_iff _ _).2 ⟨sep ++ joinSep sep (y :: ys), ?_⟩)
        show (t ++ sep) ++ joinSep sep (y :: ys) = t ++ (sep ++ joinSep sep (y :: ys))
        rw [List.append_assoc]
      · exact containsSub_append_right (x ++ sep) (ih hmem)

theorem notFoundMsg_ne_nil (nm : List Char) : notFoundMsg nm ≠ [] := by
  simp [notFoundMsg]

theorem errExecMsg_ne_nil (nm e : List Char) : errExecMsg nm e ≠ [] := by
  simp [errExecMsg]

/-- C5: a parsed action whose name matches no registered tool under
case-insensitive comparison yields the Observation enumerating every
registered tool name (each name is a substring of the Observation), and the
step leaves `tools_used` unchanged. -/
theorem unresolved_tool_leaves_tools_unchanged (exec : ToolExec)
    (resp a b : List Char)
    (ha : reSearchCI actionPat resp = some a)
    (hb : reSearchCI actionInputPat resp = some b)
    (hno : ∀ t ∈ toolNames, ¬ lowerStr t = lowerStr (trim a)) :
    parse_and_execute exec resp = (some (notFoundMsg (trim a)), none) ∧
    (∀ t ∈ toolNames, containsSub t (notFoundMsg (trim a)) = true) ∧
    (∀ (ctx : AgentCtx) (fuel i : Nat) (pad used : List (List Char)) (cache : Cache),
      ctx.gen i = .ok resp → resp ≠ [] → containsSub faMarker resp = false →
      ctx.exec = exec →
      agentLoop ctx (fuel + 1) i pad used cache =
        agentLoop ctx fuel (i + 1)
          ((pad ++ [resp]) ++ [obsWrap (notFoundMsg (trim a))]) used cache) := by
  have hres0 : resolveTool (trim a) = none := by
    rw [resolveTool, List.find?_eq_none]
    intro x hx
    simp only [beq_iff_eq]
    exact hno x hx
  have hpe : parse_and_execute exec resp = (some (notFoundMsg (trim a)), none) := by
    simp [parse_and_execute, ha, hb, dispatchAction, hres0]
  refine ⟨hpe, ?_, ?_⟩
  · intro t ht
    have hsplit : notFoundMsg (trim a) =
        (((("Error: Tool ".data ++ [Char.ofNat 39]) ++ trim a) ++ [Char.ofNat 39]) ++
          " not found. Available tools: ".data) ++ joinSep ", ".data toolNames := rfl
    rw [hsplit]
    exact containsSub_append_right _ (containsSub_joinSep t ", ".data toolNames ht)
  · intro ctx fuel i pad used cache hg hne hfa hexec
    refine agentLoop_action_obs_noname hg hne hfa ?_ (notFoundMsg_ne_nil _) fuel pad used cache
    rw [hexec]
    exact hpe

def respC5 : List Char := "Action: frobnicate\nAction Input: 42".data

def ctxC5 : AgentCtx := ⟨fun _ => .ok respC5, fun _ _ => .ok "r".data, true, "qqq".data⟩

theorem unresolved_tool_leaves_tools_unchanged_witness :
    parse_and_execute ctxC5.exec respC5 = (some (notFoundMsg "frobnicate".data), none) ∧
    (∀ t ∈ toolNames, containsSub t (notFoundMsg "frobnicate".data) = true) ∧
    agentLoop ctxC5 5 0 [] [] [] =
      agentLoop ctxC5 4 1 (([] ++ [respC5]) ++ [obsWrap (notFoundMsg "frobnicate".data)]) [] [] :=
  ⟨(unresolved_tool_leaves_tools_unchanged ctxC5.exec respC5 "frobnicate".data "42".data
      (by decide) (by decide) (by decide)).1,
    (unresolved_tool_leaves_tools_unchanged ctxC5.exec respC5 "frobnicate".data "42".data
      (by decide) (by decide) (by decide)).2.1,
    (unresolved_tool_leaves_tools_unchanged ctxC5.exec respC5 "frobnicate".data "42".data
      (by decide) (by decide) (by decide)).2.2 ctxC5 4 0 [] [] [] rfl (by decide)
      (by decide) rfl⟩

/-- C10: a resolved tool whose invocation returns the empty string is
treated like a missing action format: the parse result is falsy, the
corrective format Observation is appended, and the tool name is not recorded
in `tools_used`, although the tool body was invoked (hypothesis `hexec`). -/
theorem empty_tool_result_treated_malformed (ctx : AgentCtx) (fuel i : Nat)
    (pad used : List (List Char)) (cache : Cache) (t a b tname : List Char)
    (hg : ctx.gen i = .ok t) (ht : t ≠ [])
    (hfa : containsSub faMarker t = false)
    (ha : reSearchCI actionPat t = some a)
    (hb : reSearchCI actionInputPat t = some b)
    (hres : resolveTool (trim a) = some tname)
    (hexec : ctx.exec tname (stripQuotes (trim b)) = .ok []) :
    parse_and_execute ctx.exec t = (some [], some (trim a)) ∧
    agentLoop ctx (fuel + 1) i pad used cache =
      agentLoop ctx fuel (i + 1) ((pad ++ [t]) ++ [formatObs]) used cache := by
  have hpe : parse_and_execute ctx.exec t = (some [], some (trim a)) := by
    simp [parse_and_execute, ha, hb, dispatchAction, hres, hexec]
  exact ⟨hpe, agentLoop_empty_result hg ht hfa hpe fuel pad used cache⟩

def respC10 : List Char := "Action: list_tasks\nAction Input: all".data

def ctxC10 : AgentCtx := ⟨fun _ => .ok respC10, fun _ _ => .ok [], true, "qqq".data⟩

theorem empty_tool_result_treated_malformed_witness :
    parse_and_execute ctxC10.exec respC10 = (some [], some "list_tasks".data) ∧
    agentLoop ctxC10 5 0 [] [] [] =
      agentLoop ctxC10 4 1 (([] ++ [respC10]) ++ [formatObs]) [] [] :=
  empty_tool_result_treated_malformed ctxC10 4 0 [] [] [] respC10
    "list_tasks".data "all".data "list_tasks".data rfl (by decide) (by decide)
    (by decide) (by decide) (by decide) rfl

def respC8 : List Char := "Reaction: greet\nAction Input: hi".data

def execC8 : ToolExec := fun _ _ => .ok "x".data

def ctxC8 : AgentCtx := ⟨fun _ => .ok respC8, execC8, true, "qqq".data⟩

set_option maxRecDepth 8000 in
/-- C8 counterexample: the source regex search is not anchored to line
starts.  On `"Reaction: greet\nAction Input: hi"` no line begins with
`Action:` (so the claim's line-anchored extraction finds no action and
classifies the step `Malformed`, which would append the corrective format
Observation), yet the code matches `action:` inside `Reaction:`, extracts
the action name `greet`, and appends the tool-not-found Observation
instead. -/
theorem line_anchored_parse_counterexample :
    containsSub faMarker respC8 = false ∧
    anchoredSearchCI actionPat respC8 = none ∧
    reSearchCI actionPat respC8 = some "greet".data ∧
    parse_and_execute execC8 respC8 = (some (notFoundMsg "greet".data), none) ∧
    parse_and_execute execC8 respC8 ≠ (none, none) ∧
    obsWrap (notFoundMsg "greet".data) ≠ formatObs ∧
    agentLoop ctxC8 5 0 [] [] [] =
      agentLoop ctxC8 4 1 [respC8, obsWrap (notFoundMsg "greet".data)] [] [] := by
  exact ⟨by decide, by decide, by decide, by decide, by decide, by decide, by decide⟩

/-- C8 (amended): for every completion text without `Final Answer:`, the
parser extracts the captures of the first case-insensitive matches of
`Action:` and `Action Input:` found anywhere in the text (not anchored to
line starts), each capture running to the end of its line; if either pattern
is absent the step is Malformed: the parse returns `(None, None)` and the
controller appends the corrective format Observation and continues, the
iteration still counting toward the ceiling (one fuel unit consumed). -/
theorem action_parse_unanchored (exec : ToolExec) (resp : List Char)
    (hfa : containsSub faMarker resp = false) :
    ((reSearchCI actionPat resp = none ∨ reSearchCI actionInputPat resp = none) →
      parse_and_execute exec resp = (none, none)) ∧
    (∀ a b, reSearchCI actionPat resp = some a →
      reSearchCI actionInputPat resp = some b →
      parse_and_execute exec resp = dispatchAction exec (trim a) (stripQuotes (trim b))) ∧
    (∀ (ctx : AgentCtx) (fuel i : Nat) (pad used : List (List Char)) (cache : Cache),
      ctx.gen i = .ok resp → resp ≠ [] →
      parse_and_execute ctx.exec resp = (none, none) →
      agentLoop ctx (fuel + 1) i pad used cache =
        agentLoop ctx fuel (i + 1) ((pad ++ [resp]) ++ [formatObs]) used cache) := by
  refine ⟨?_, ?_, ?_⟩
  · rintro (h | h)
    · simp [parse_and_execute, h]
    · cases hx : reSearchCI actionPat resp <;> simp [parse_and_execute, h, hx]
  · intro a b ha hb
    simp [parse_and_execute, ha, hb]
  · intro ctx fuel i pad used cache hg hne hpe
    exact agentLoop_malformed hg hne hfa hpe fuel pad used cache

def respC8b : List Char := "Thought: hmm, no action yet".data

def ctxC8b : AgentCtx := ⟨fun _ => .ok respC8b, execC8, true, "qqq".data⟩

theorem action_parse_unanchored_witness :
    parse_and_execute execC8 respC8b = (none, none) ∧
    parse_and_execute execC8 "Action: get_contact\nAction Input: john".data =
      dispatchAction execC8 (trim "get_contact".data) (stripQuotes (trim "john".data)) ∧
    agentLoop ctxC8b 5 0 [] [] [] =
      agentLoop ctxC8b 4 1 (([] ++ [respC8b]) ++ [formatObs]) [] [] :=
  ⟨(action_parse_unanchored execC8 respC8b (by decide)).1 (Or.inl (by decide)),
    (action_parse_unanchored execC8 "Action: get_contact\nAction Input: john".data
      (by decide)).2.1 "get_contact".data "john".data (by decide) (by decide),
    (action_parse_unanchored execC8 respC8b (by decide)).2.2 ctxC8b 4 0 [] [] []
      rfl (by decide) (by decide)⟩

def ctxC9x : AgentCtx := ⟨fun _ => .ok [], fun _ _ => .ok "r".data, true, "qqq".data⟩

/-- C9 counterexample: a completion wrapper outcome that is a *successful*
but empty text also produces the rate-limited `success = false` response —
the run below has the oracle never rate-limited and never raising, yet the
result is the rate-limit failure, so `success = false` is not *exactly*
"retries exhausted or unhandled exception". -/
theorem success_false_claim_counterexample :
    process_message ctxC9x [] = (.rateLimit, []) ∧
    LoopResult.rateLimit.success = false ∧
    (∀ i, ctxC9x.gen i ≠ .rateLimited) ∧
    (∀ i e, ctxC9x.gen i ≠ .raised e) :=
  ⟨by decide, rfl, fun _ => by simp [ctxC9x], fun _ _ => by simp [ctxC9x]⟩

def ctxC9e : AgentCtx :=
  ⟨fun _ => .raised "boom".data, fun _ _ => .ok "r".data, true, "qqq".data⟩

def ctxC9t : AgentCtx :=
  ⟨fun _ => .ok "Action: get_weather\nAction Input: paris".data,
    fun _ _ => .error "api down".data, true, "qqq".data⟩

/-- C9 (amended): `success = false` holds exactly for the rate-limit and
unhandled-exception results; the rate-limit result arises only from an
iteration whose completion wrapper returned the failure signal *or an empty
text* (treated identically by `if not agent_response:`), and the errored
result only from a raised exception with the same text; a failing tool
invocation never ends the request — its error becomes an Observation and
the loop continues. -/
theorem success_false_characterization :
    (∀ (ctx : AgentCtx) (cache : Cache),
      (process_message ctx cache).1.success = false ↔
        ((process_message ctx cache).1 = .rateLimit ∨
          ∃ e, (process_message ctx cache).1 = .errored e)) ∧
    (∀ (ctx : AgentCtx) (cache : Cache),
      (process_message ctx cache).1 = .rateLimit →
      ∃ j, j < 5 ∧ (ctx.gen j = .rateLimited ∨ ctx.gen j = .ok [])) ∧
    (∀ (ctx : AgentCtx) (cache : Cache) (e : List Char),
      (process_message ctx cache).1 = .errored e →
      ∃ j, j < 5 ∧ ctx.gen j = .raised e) ∧
    (∀ (ctx : AgentCtx) (fuel i : Nat) (pad used : List (List Char)) (cache : Cache)
      (t a b tname e : List Char),
      ctx.gen i = .ok t → t ≠ [] → containsSub faMarker t = false →
      reSearchCI actionPat t = some a → reSearchCI actionInputPat t = some b →
      resolveTool (trim a) = some tname →
      ctx.exec tname (stripQuotes (trim b)) = .error e →
      agentLoop ctx (fuel + 1) i pad used cache =
        agentLoop ctx fuel (i + 1)
          ((pad ++ [t]) ++ [obsWrap (errExecMsg (trim a) e)]) (used ++ [trim a]) cache) := by
  refine ⟨?_, ?_, ?_, ?_⟩
  · intro ctx cache
    cases h : (process_message ctx cache).1 <;> simp [LoopResult.success]
  · intro ctx cache h
    rcases process_message_inv ctx cache with ⟨v, _, _, hpe⟩ | hpe
    · rw [hpe] at h
      simp at h
    · rw [hpe] at h
      have h2 : agentLoop ctx 5 0 [] [] cache =
          (.rateLimit, (agentLoop ctx 5 0 [] [] cache).2) := Prod.ext h rfl
      obtain ⟨j, _, hj2, hj3⟩ := agentLoop_rateLimit_source ctx 5 0 [] [] cache h2
      exact ⟨j, by omega, hj3⟩
  · intro ctx cache e h
    rcases process_message_inv ctx cache with ⟨v, _, _, hpe⟩ | hpe
    · rw [hpe] at h
      simp at h
    · rw [hpe] at h
      have h2 : agentLoop ctx 5 0 [] [] cache =
          (.errored e, (agentLoop ctx 5 0 [] [] cache).2) := Prod.ext h rfl
      obtain ⟨j, _, hj2, hj3⟩ := agentLoop_errored_source ctx 5 0 [] [] cache h2
      exact ⟨j, by omega, hj3⟩
  · intro ctx fuel i pad used cache t a b tname e hg ht hfa ha hb hres hexec
    have hnm : trim a ≠ [] := by
      intro hh
      rw [hh, show resolveTool ([] : List Char) = none from by decide] at hres
      simp at hres
    have hpe : parse_and_execute ctx.exec t =
        (some (errExecMsg (trim a) e), some (trim a)) := by
      simp [parse_and_execute, ha, hb, dispatchAction, hres, hexec]
    exact agentLoop_action_obs hg ht hfa hpe (errExecMsg_ne_nil _ _) hnm fuel pad used cache

theorem success_false_characterization_witness :
    ((process_message ctxC9x []).1.success = false ↔
      ((process_message ctxC9x []).1 = .rateLimit ∨
        ∃ e, (process_message ctxC9x []).1 = .errored e)) ∧
    (∃ j, j < 5 ∧ (ctxC9x.gen j = .rateLimited ∨ ctxC9x.gen j = .ok [])) ∧
    (∃ j, j < 5 ∧ ctxC9e.gen j = .raised "boom".data) ∧
    agentLoop ctxC9t 5 0 [] [] [] =
      agentLoop ctxC9t 4 1
        (([] ++ ["Action: get_weather\nAction Input: paris".data]) ++
          [obsWrap (errExecMsg "get_weather".data "api down".data)])
        (([] : List (List Char)) ++ ["get_weather".data]) [] :=
  ⟨success_false_characterization.1 ctxC9x [],
    success_false_characterization.2.1 ctxC9x [] (by decide),
    success_false_characterization.2.2.1 ctxC9e [] "boom".data (by decide),
    success_false_characterization.2.2.2 ctxC9t 4 0 [] [] []
      "Action: get_weather\nAction Input: paris".data "get_weather".data
      "paris".data "get_weather".data "api down".data rfl (by decide) (by decide)
      (by decide) (by decide) (by decide) rfl⟩

end Bob
